import Mathlib

/-!
Verification development for the `secure-api-key` Rust service.

Strings are modelled as `List Char`, bytes as `Nat` values below 256, and
machine integers (`u16`, `u32`, `i32`, `i64`) as `Nat`/`Int` with explicit
bounds where overflow matters.  The SHA-256 collaborator from the `sha2`
crate is passed in as an explicit function argument `sha256`; every claim
quantifies over it (only determinism and the 32-byte output shape matter).
The `base32` crate (RFC 4648 alphabet, version 0.4 semantics: unpadded
encode, case-folding decode that treats a trailing padding character as
value zero and truncates the output to `len * 5 / 8` bytes) is embedded
bit-for-bit below.
-/

deriving instance DecidableEq for Except

namespace SecureApiKey

/-! ### Generic character and digit helpers -/

/-- Model of Rust's `str::split(sep)` on a character list: splitting an
empty string yields `[[]]`, and every separator starts a new field. -/
def splitOnChar (sep : Char) : List Char → List (List Char)
  | [] => [[]]
  | c :: rest =>
    if c = sep then [] :: splitOnChar sep rest
    else
      match splitOnChar sep rest with
      | [] => [[c]]
      | p :: ps => (c :: p) :: ps

/-- Little-endian decimal digits of `n`, driven by a fuel argument so the
definition is structurally recursive (any `fuel ≥ n` gives the digits). -/
def decimalDigitsRev (fuel n : Nat) : List Nat :=
  match fuel with
  | 0 => []
  | fuel + 1 => if n = 0 then [] else n % 10 :: decimalDigitsRev fuel (n / 10)

/-- Model of Rust's `u32::to_string` (and `Display` for unsigned integers):
most-significant digit first, `"0"` for zero. -/
def natChars (n : Nat) : List Char :=
  if n = 0 then [Char.ofNat 48]
  else ((decimalDigitsRev n n).map (fun d => Char.ofNat (48 + d))).reverse

/-- Model of Rust's `Display` for signed integers (`i32`, `i64`): a minus
sign followed by the decimal digits of the absolute value. -/
def intChars (i : Int) : List Char :=
  if i < 0 then Char.ofNat 45 :: natChars i.natAbs else natChars i.toNat

/-- Decimal digit test, as in Rust's `char::is_ascii_digit`. -/
def isDigitChar (c : Char) : Bool := 48 ≤ c.toNat ∧ c.toNat ≤ 57

/-- Model of Rust's `str::parse::<u32>`: an optional leading plus sign, at
least one digit, all digits, and the value must fit in 32 bits. -/
def parseU32 (s : List Char) : Option Nat :=
  let digits := match s with
    | c :: rest => if c = Char.ofNat 43 then rest else s
    | [] => s
  if digits = [] then none
  else if digits.all isDigitChar then
    let v := digits.foldl (fun a c => 10 * a + (c.toNat - 48)) 0
    if v < 2 ^ 32 then some v else none
  else none

/-- Model of Rust's `str::starts_with(c)` for a single character. -/
def startsWithChar (c : Char) : List Char → Bool
  | [] => false
  | c0 :: _ => c0 = c

/-- Byte sequence hashed for a character list.  Both the generator and the
validator feed identical strings to SHA-256, so only equality of inputs
matters for the claims; code points stand in for the UTF-8 bytes. -/
def strBytes (s : List Char) : List Nat := s.map Char.toNat

/-- Lowercase hex digit, as produced by Rust's `{:x}` formatting. -/
def hexDigit (n : Nat) : Char :=
  if n < 10 then Char.ofNat (48 + n) else Char.ofNat (87 + n)

/-- Model of `format!("{:x}", hasher.finalize())`: two lowercase hex digits
per byte. -/
def bytesToHex (l : List Nat) : List Char :=
  l.flatMap (fun b => [hexDigit (b / 16), hexDigit (b % 16)])

/-! ### Bit-level helpers for the base32 codec -/

/-- Big-endian bits of one byte. -/
def byteBits (b : Nat) : List Bool :=
  [b.testBit 7, b.testBit 6, b.testBit 5, b.testBit 4,
   b.testBit 3, b.testBit 2, b.testBit 1, b.testBit 0]

/-- Big-endian bits of one 5-bit base32 value. -/
def natBits5 (v : Nat) : List Bool :=
  [v.testBit 4, v.testBit 3, v.testBit 2, v.testBit 1, v.testBit 0]

/-- Value of a big-endian bit list. -/
def bitsToNat (l : List Bool) : Nat :=
  l.foldl (fun a b => 2 * a + b.toNat) 0

/-- Split a bit stream into 5-bit groups, zero-padding the final group,
exactly as the `base32` crate's encoder consumes its input. -/
def chunks5 : List Bool → List (List Bool)
  | [] => []
  | [a] => [[a, false, false, false, false]]
  | [a, b] => [[a, b, false, false, false]]
  | [a, b, c] => [[a, b, c, false, false]]
  | [a, b, c, d] => [[a, b, c, d, false]]
  | a :: b :: c :: d :: e :: rest => [a, b, c, d, e] :: chunks5 rest

/-- Reassemble full bytes from a bit stream, dropping a trailing partial
byte, exactly as the crate's decoder truncates its output. -/
def bitsToBytes : List Bool → List Nat
  | a :: b :: c :: d :: e :: f :: g :: h :: rest =>
    bitsToNat [a, b, c, d, e, f, g, h] :: bitsToBytes rest
  | _ => []

/-- RFC 4648 alphabet character for a 5-bit value (`A`–`Z`, `2`–`7`). -/
def b32Char (v : Nat) : Char :=
  if v < 26 then Char.ofNat (65 + v) else Char.ofNat (50 + (v - 26))

/-- Inverse alphabet of the `base32` crate: case-insensitive letters,
digits `2`–`7`, and the padding character mapped to value zero (the
crate's inverse table genuinely contains that entry); everything else is
rejected. -/
def b32Val (c : Char) : Option Nat :=
  let u := if 97 ≤ c.toNat ∧ c.toNat ≤ 122 then Char.ofNat (c.toNat - 32) else c
  if 65 ≤ u.toNat ∧ u.toNat ≤ 90 then some (u.toNat - 65)
  else if 50 ≤ u.toNat ∧ u.toNat ≤ 55 then some (u.toNat - 50 + 26)
  else if u.toNat = 61 then some 0
  else none

/-- Model of `base32::encode(Alphabet::RFC4648 { padding: false }, data)`:
5-bit groups of the big-endian bit stream, one alphabet character each,
without padding characters. -/
def b32encode (data : List Nat) : List Char :=
  (chunks5 (data.flatMap byteBits)).map (fun g => b32Char (bitsToNat g))

/-- Count of trailing padding characters, capped at 6 as in the crate. -/
def trailingPadCount (s : List Char) : Nat :=
  min 6 (s.reverse.takeWhile (fun c => c.toNat = 61)).length

/-- Model of `base32::decode(Alphabet::RFC4648 { .. }, data)`: reject any
character outside the (case-folded) alphabet, concatenate the 5-bit
values, and keep the first `(len - trailing_pads) * 5 / 8` bytes. -/
def b32decode (s : List Char) : Option (List Nat) :=
  if s.all (fun c => (b32Val c).isSome) then
    some ((bitsToBytes ((s.map (fun c => (b32Val c).getD 0)).flatMap natBits5)).take
      (((s.length - trailingPadCount s) * 5) / 8))
  else none

/-! ### Errors (src/errors.rs) -/

/-- Payload of `ApiError::Database`: the propagated `rusqlite::Error`.
Only the variant reachable in the modelled operations is spelled out. -/
inductive RusqliteError where
  | QueryReturnedNoRows : RusqliteError
  | other : RusqliteError
deriving DecidableEq

/-- Model of `ApiError` from src/errors.rs.  `InvalidRequest` carries its
message string. -/
inductive ApiError where
  | Database (e : RusqliteError) : ApiError
  | InvalidKeyFormat : ApiError
  | InvalidChecksum : ApiError
  | KeyNotFound : ApiError
  | KeyExpired : ApiError
  | KeyInactive : ApiError
  | InvalidToken : ApiError
  | TokenExpired : ApiError
  | UserNotFound : ApiError
  | UserExists : ApiError
  | InvalidRequest (msg : List Char) : ApiError
  | Internal : ApiError
deriving DecidableEq

/-! ### Key codec (src/security.rs, `ApiKeyService`) -/

/-- Model of the `ApiKeyService` configuration; the `db` collaborator is
passed separately as a lookup function, and the Rust field `prefix` is
renamed `pfx` (`prefix` cannot be declared in Lean). -/
structure ApiKeyService where
  pfx : List Char
  environment : List Char
  version : Int
  secret_key : List Char
deriving DecidableEq

/-- Byte string fed to SHA-256 by `generate_api_key`: the concatenated
hasher updates `prefix`, `environment`, `"v{version}"`, the decimal
timestamp, and the raw random bytes. -/
def checksumInput (svc : ApiKeyService) (random_bytes : List Nat) (timestamp : Nat) : List Nat :=
  strBytes svc.pfx ++ strBytes svc.environment ++
    strBytes (Char.ofNat 118 :: intChars svc.version) ++
    strBytes (natChars timestamp) ++ random_bytes

/-- Model of `ApiKeyService::generate_api_key`.  The 20 random bytes drawn
from `thread_rng` and the `u32` unix timestamp are explicit inputs; the
result is the `(key_string, key_hash)` pair of the `Ok` branch (the Rust
function never returns an error). -/
def generate_api_key (sha256 : List Nat → List Nat) (svc : ApiKeyService)
    (random_bytes : List Nat) (timestamp : Nat) : List Char × List Char :=
  let checksum := sha256 (checksumInput svc random_bytes timestamp)
  let key_string :=
    svc.pfx ++ Char.ofNat 95 ::
      (svc.environment ++ Char.ofNat 95 ::
        ((Char.ofNat 118 :: intChars svc.version) ++ Char.ofNat 95 ::
          (natChars timestamp ++ Char.ofNat 95 ::
            (b32encode random_bytes ++ Char.ofNat 95 ::
              b32encode (checksum.take 4)))))
  let key_hash := bytesToHex (sha256 (strBytes key_string))
  (key_string, key_hash)

/-- Model of `ApiKeyService::validate_api_key_format`: split on `_`,
require exactly six fields, check prefix/environment/version shape, parse
the timestamp as `u32`, base32-decode the random field, recompute the
checksum over the same inputs as generation, and compare it with the
decoded checksum field. -/
def validate_api_key_format (sha256 : List Nat → List Nat) (svc : ApiKeyService)
    (key : List Char) : Except ApiError Unit :=
  match splitOnChar (Char.ofNat 95) key with
  | [p0, p1, p2, p3, p4, p5] =>
    if p0 ≠ svc.pfx ∨ p1 ≠ svc.environment then .error .InvalidKeyFormat
    else if ¬ startsWithChar (Char.ofNat 118) p2 then .error .InvalidKeyFormat
    else
      match parseU32 p3 with
      | none => .error .InvalidKeyFormat
      | some _ =>
        match b32decode p4 with
        | none => .error .InvalidKeyFormat
        | some random_bytes =>
          let expected := sha256 (strBytes p0 ++ strBytes p1 ++ strBytes p2 ++
            strBytes p3 ++ random_bytes)
          match b32decode p5 with
          | none => .error .InvalidChecksum
          | some provided =>
            if provided ≠ expected.take 4 then .error .InvalidChecksum
            else .ok ()
  | _ => .error .InvalidKeyFormat

/-! ### Stored keys and the persistence collaborator (src/models.rs, src/database.rs) -/

/-- Model of the `ApiKey` record from src/models.rs.  Timestamps are unix
seconds; `key_prefix` is shortened to `key_pfx` for Lean. -/
structure ApiKey where
  id : Int
  user_id : Int
  key_hash : List Char
  key_pfx : List Char
  environment : List Char
  version : Int
  scopes : List (List Char)
  is_active : Bool
  issued_at : Int
  expires_at : Option Int
  last_used_at : Option Int
  usage_count : Int
deriving DecidableEq

/-- Model of `Database::get_api_key_by_hash`.  The SQLite table is the
lookup function `db`; an absent row is `rusqlite::Error::QueryReturnedNoRows`,
which the surrounding `?` converts through `From<rusqlite::Error>` into
`ApiError::Database`.  The row mapper overwrites `issued_at` with the
current time and forces `expires_at`/`last_used_at` to `None`. -/
def get_api_key_by_hash (db : List Char → Option ApiKey) (now : Int)
    (key_hash : List Char) : Except ApiError ApiKey :=
  match db key_hash with
  | none => .error (.Database .QueryReturnedNoRows)
  | some row => .ok { row with issued_at := now, expires_at := none, last_used_at := none }

/-- Model of `ApiKeyService::validate_api_key`: format check, SHA-256 the
key, hex-encode, look the hash up, then reject inactive records.  The
expiry and usage-count blocks are commented out in the source and are
therefore absent here too. -/
def validate_api_key (sha256 : List Nat → List Nat) (svc : ApiKeyService)
    (db : List Char → Option ApiKey) (now : Int) (key : List Char) :
    Except ApiError ApiKey :=
  match validate_api_key_format sha256 svc key with
  | .error e => .error e
  | .ok _ =>
    let key_hash := bytesToHex (sha256 (strBytes key))
    match get_api_key_by_hash db now key_hash with
    | .error e => .error e
    | .ok api_key =>
      if api_key.is_active = false then .error .KeyInactive
      else .ok api_key

/-! ### Token service (src/security.rs, `TokenService`) -/

/-- Model of the `Claims` struct serialized into the JWT. -/
structure Claims where
  sub : List Char
  api_key_id : Int
  scopes : List (List Char)
  exp : Int
  iat : Int
deriving DecidableEq

/-- Model of a signed token produced by `jsonwebtoken::encode` with the
default HS256 header: the claims together with the secret that signed
them (signature verification succeeds exactly when the verifying secret
matches). -/
structure Jwt where
  claims : Claims
  secret : List Char
deriving DecidableEq

/-- Error kinds of `jsonwebtoken::errors::Error` reachable for a
well-formed token: signature mismatch and the decoder's own expiry
check. -/
inductive JwtError where
  | InvalidSignature : JwtError
  | ExpiredSignature : JwtError
deriving DecidableEq

/-- Model of `impl From<jsonwebtoken::errors::Error> for ApiError`
(src/errors.rs): every jsonwebtoken error collapses to `InvalidToken`. -/
def apiErrorOfJwtError : JwtError → ApiError := fun _ => .InvalidToken

/-- Model of `jsonwebtoken::decode` under `Validation::default()`: verify
the signature, then validate the `exp` claim against the current time
minus the configured `leeway` (60 seconds in current jsonwebtoken
releases, 0 in older ones; it is kept as a parameter). -/
def jwtDecode (leeway : Int) (token : Jwt) (secret : List Char) (now : Int) :
    Except JwtError Claims :=
  if token.secret ≠ secret then .error .InvalidSignature
  else if token.claims.exp < now - leeway then .error .ExpiredSignature
  else .ok token.claims

/-- Model of `TokenService::generate_access_token`: claims carry the
subject id rendered in decimal, the key id, the scopes, `iat = now` and
`exp = now + 3600` (one hour), signed with the service secret.  The hash
of the serialized token is persisted through `create_access_token`; that
write-only side effect is not observable by any claim and is omitted. -/
def generate_access_token (secret_key : List Char) (user_id : Int)
    (api_key_id : Int) (scopes : List (List Char)) (now : Int) : Jwt :=
  { claims :=
      { sub := intChars user_id
        api_key_id := api_key_id
        scopes := scopes
        exp := now + 3600
        iat := now }
    secret := secret_key }

/-- Model of `TokenService::validate_access_token`: decode (any decoder
error becomes `InvalidToken` through the `From` conversion), then
re-check `exp` against the current time, surfacing `TokenExpired`. -/
def validate_access_token (leeway : Int) (secret_key : List Char)
    (token : Jwt) (now : Int) : Except ApiError Claims :=
  match jwtDecode leeway token secret_key now with
  | .error e => .error (apiErrorOfJwtError e)
  | .ok claims =>
    if claims.exp < now then .error .TokenExpired
    else .ok claims

/-! ### Rate limiter (src/rate_limit.rs) -/

/-- Model of `RateLimitConfig` (all fields are `u16` in Rust). -/
structure RateLimitConfig where
  requests_per_minute : Nat
  burst_limit : Nat
  window_size_seconds : Nat
deriving DecidableEq

/-- Model of `RateLimitEntry`; `window_start` is an `Instant`, modelled as
monotone nanoseconds. -/
structure RateLimitEntry where
  requests : Nat
  window_start : Nat
deriving DecidableEq

/-- Model of `RateLimitError`. -/
inductive RateLimitError where
  | LimitExceeded : RateLimitError
  | BurstLimitExceeded : RateLimitError
deriving DecidableEq

/-- The identifier → entry map behind the mutex, as an association list. -/
abbrev Entries : Type := List (List Char × RateLimitEntry)

/-- Window duration in the nanosecond units of `window_start`
(`Duration::from_secs(window_size_seconds as u64)`). -/
def windowNanos (c : RateLimitConfig) : Nat :=
  c.window_size_seconds * 1000000000

/-- First binding of `id` in the map, as `HashMap::get`. -/
def lookupEntry (id : List Char) : Entries → Option RateLimitEntry
  | [] => none
  | (k, e) :: rest => if k = id then some e else lookupEntry id rest

/-- Replace the binding of `id` (or append one), as mutation through
`HashMap::entry`. -/
def upsertEntry (id : List Char) (e : RateLimitEntry) : Entries → Entries
  | [] => [(id, e)]
  | (k, e0) :: rest =>
    if k = id then (id, e) :: rest else (k, e0) :: upsertEntry id e rest

/-- The per-call sweep `entries.retain(|_, e| now - e.window_start < wd)`. -/
def purgeStale (c : RateLimitConfig) (now : Nat) (entries : Entries) : Entries :=
  List.filter (fun x => now - x.2.window_start < windowNanos c) entries

/-- Lazy window reset: zero the count and restart the window when the
entry's window has elapsed. -/
def entryAfterReset (c : RateLimitConfig) (now : Nat) (e : RateLimitEntry) :
    RateLimitEntry :=
  if windowNanos c ≤ now - e.window_start then ⟨0, now⟩ else e

/-- Model of `RateLimiter::check_rate_limit` at time `now`: purge stale
entries, fetch or create the entry, lazily reset an elapsed window, then
burst check, rate check, and finally increment-and-admit.  Returns the
result together with the updated map. -/
def check_rate_limit (c : RateLimitConfig) (entries : Entries)
    (id : List Char) (now : Nat) : Except RateLimitError Unit × Entries :=
  let entries1 := purgeStale c now entries
  let e0 := (lookupEntry id entries1).getD ⟨0, now⟩
  let e1 := entryAfterReset c now e0
  if c.burst_limit ≤ e1.requests then
    (.error .BurstLimitExceeded, upsertEntry id e1 entries1)
  else if c.requests_per_minute ≤ e1.requests then
    (.error .LimitExceeded, upsertEntry id e1 entries1)
  else
    (.ok (), upsertEntry id ⟨e1.requests + 1, e1.window_start⟩ entries1)

/-- Model of `RateLimiter::get_remaining_requests` at time `now` (the
subtractions are `u16::saturating_sub`, i.e. truncated). -/
def get_remaining_requests (c : RateLimitConfig) (entries : Entries)
    (id : List Char) (now : Nat) : Nat :=
  match lookupEntry id entries with
  | some e =>
    if windowNanos c ≤ now - e.window_start then c.requests_per_minute
    else
      min (c.requests_per_minute - e.requests) (c.burst_limit - e.requests)
  | none => c.burst_limit

/-- Iterated `check_rate_limit` calls for one identifier at the given
sequence of times, returning the list of results and the final map. -/
def checkSeq (c : RateLimitConfig) (entries : Entries) (id : List Char) :
    List Nat → List (Except RateLimitError Unit) × Entries
  | [] => ([], entries)
  | t :: ts =>
    let step := check_rate_limit c entries id t
    let rest := checkSeq c step.2 id ts
    (step.1 :: rest.1, rest.2)

/-! ### Concrete instances used by witnesses and counterexamples -/

/-- Deterministic stand-in hash used to instantiate the `sha256` parameter
in witnesses and counterexamples: 32 bytes derived from the input sum. -/
def toySha256 (l : List Nat) : List Nat :=
  (List.range 32).map (fun i => (l.foldl (fun a b => a + b) 0 + i) % 256)

/-- The `("acme", "prod", 1)` configuration of the spec's concrete codec
scenario. -/
def acmeService : ApiKeyService :=
  { pfx := ['a', 'c', 'm', 'e']
    environment := ['p', 'r', 'o', 'd']
    version := 1
    secret_key := [] }

/-- Replace the final character of a key string, as in the spec's
character-flipping scenario. -/
def setLastChar (l : List Char) (c : Char) : List Char := l.dropLast ++ [c]

/-! ### Character and decimal-digit lemmas -/

theorem charOfNat_toNat {n : Nat} (h : n < 55296) : (Char.ofNat n).toNat = n := by
  unfold Char.ofNat
  rw [dif_pos (Or.inl h)]
  rfl

theorem isDigitChar_iff {c : Char} : isDigitChar c = true ↔ 48 ≤ c.toNat ∧ c.toNat ≤ 57 := by
  simp [isDigitChar]

theorem digitChar_toNat {d : Nat} (h : d < 10) :
    (Char.ofNat (48 + d)).toNat = 48 + d := charOfNat_toNat (by omega)

theorem decimalDigitsRev_lt (fuel : Nat) :
    ∀ n d, d ∈ decimalDigitsRev fuel n → d < 10 := by
  induction fuel with
  | zero => intro n d h; simp [decimalDigitsRev] at h
  | succ fuel ih =>
    intro n d h
    rw [decimalDigitsRev] at h
    by_cases hn : n = 0
    · simp [hn] at h
    · rw [if_neg hn] at h
      rcases List.mem_cons.mp h with h | h
      · omega
      · exact ih _ _ h

theorem decimalDigitsRev_value (fuel : Nat) :
    ∀ n, n ≤ fuel →
      (decimalDigitsRev fuel n).foldr (fun d a => d + 10 * a) 0 = n := by
  induction fuel with
  | zero => intro n h; interval_cases n; simp [decimalDigitsRev]
  | succ fuel ih =>
    intro n h
    rw [decimalDigitsRev]
    by_cases hn : n = 0
    · simp [hn]
    · rw [if_neg hn]
      simp only [List.foldr_cons]
      have hd : n / 10 ≤ fuel := by omega
      rw [ih _ hd]
      omega

theorem foldl_digits_reverse (l : List Nat) (hl : ∀ d ∈ l, d < 10) :
    ∀ a : Nat,
      ((l.map (fun d => Char.ofNat (48 + d))).reverse).foldl
        (fun acc c => 10 * acc + (c.toNat - 48)) a =
      a * 10 ^ l.length + l.foldr (fun d x => d + 10 * x) 0 := by
  induction l with
  | nil => intro a; simp
  | cons d l ih =>
    intro a
    have hd : d < 10 := hl d (List.mem_cons_self ..)
    have hl' : ∀ x ∈ l, x < 10 := fun x hx => hl x (List.mem_cons_of_mem _ hx)
    simp only [List.map_cons, List.reverse_cons, List.foldl_append, List.foldl_cons,
      List.foldl_nil, List.foldr_cons, List.length_cons]
    rw [ih hl']
    rw [digitChar_toNat hd]
    ring_nf
    omega

theorem natChars_digits {n : Nat} : ∀ c ∈ natChars n, 48 ≤ c.toNat ∧ c.toNat ≤ 57 := by
  intro c hc
  rw [natChars] at hc
  by_cases hn : n = 0
  · rw [if_pos hn] at hc
    simp at hc
    subst hc
    rw [charOfNat_toNat (by omega)]
    omega
  · rw [if_neg hn] at hc
    rw [List.mem_reverse] at hc
    rcases List.mem_map.mp hc with ⟨d, hd, rfl⟩
    have : d < 10 := decimalDigitsRev_lt n n d hd
    rw [digitChar_toNat this]
    omega

theorem natChars_ne_nil {n : Nat} : natChars n ≠ [] := by
  rw [natChars]
  by_cases hn : n = 0
  · simp [hn]
  · rw [if_neg hn]
    obtain ⟨m, rfl⟩ := Nat.exists_eq_succ_of_ne_zero hn
    intro h
    rw [List.reverse_eq_nil_iff, List.map_eq_nil_iff] at h
    rw [decimalDigitsRev, if_neg hn] at h
    exact List.cons_ne_nil _ _ h

theorem underscore_not_mem_natChars {n : Nat} : Char.ofNat 95 ∉ natChars n := by
  intro h
  have := natChars_digits _ h
  rw [charOfNat_toNat (by omega)] at this
  omega

theorem underscore_not_mem_intChars {i : Int} : Char.ofNat 95 ∉ intChars i := by
  rw [intChars]
  by_cases hi : i < 0
  · rw [if_pos hi]
    intro h
    rcases List.mem_cons.mp h with h | h
    · have h45 : (Char.ofNat 95).toNat = 95 := charOfNat_toNat (by omega)
      have h45' : (Char.ofNat 45).toNat = 45 := charOfNat_toNat (by omega)
      rw [h] at h45
      omega
    · exact underscore_not_mem_natChars h
  · rw [if_neg hi]
    exact underscore_not_mem_natChars

theorem parseU32_natChars {n : Nat} (h : n < 2 ^ 32) : parseU32 (natChars n) = some n := by
  have hne : natChars n ≠ [] := natChars_ne_nil
  have hdig : ∀ c ∈ natChars n, isDigitChar c = true := by
    intro c hc
    exact isDigitChar_iff.mpr (natChars_digits c hc)
  have hval : (natChars n).foldl (fun a c => 10 * a + (c.toNat - 48)) 0 = n := by
    rw [natChars]
    by_cases hn : n = 0
    · rw [if_pos hn]
      simp [List.foldl_cons, charOfNat_toNat (by omega : (48 : Nat) < 55296), hn]
    · rw [if_neg hn]
      rw [foldl_digits_reverse _ (decimalDigitsRev_lt n n)]
      rw [decimalDigitsRev_value n n (le_refl n)]
      simp
  rcases hcons : natChars n with _ | ⟨c, rest⟩
  · exact absurd hcons hne
  · have hc48 : 48 ≤ c.toNat ∧ c.toNat ≤ 57 := by
      have := natChars_digits (n := n) c
      rw [hcons] at this
      exact this (List.mem_cons_self ..)
    have hcplus : ¬ c = Char.ofNat 43 := by
      intro hEq
      have : (Char.ofNat 43).toNat = 43 := charOfNat_toNat (by omega)
      rw [hEq, this] at hc48
      omega
    rw [parseU32]
    simp only [if_neg hcplus]
    rw [if_neg (by simp), if_pos]
    · rw [← hcons, hval, if_pos h]
    · rw [← hcons]
      simpa using hdig

/-! ### Lemmas about splitting on the underscore separator -/

theorem splitOnChar_of_not_mem {sep : Char} {l : List Char} (h : sep ∉ l) :
    splitOnChar sep l = [l] := by
  induction l with
  | nil => rfl
  | cons c rest ih =>
    rw [splitOnChar]
    have hc : ¬ c = sep := fun hEq => h (hEq ▸ List.mem_cons_self ..)
    rw [if_neg hc, ih (fun hm => h (List.mem_cons_of_mem _ hm))]

theorem splitOnChar_append {sep : Char} {a r : List Char} (h : sep ∉ a) :
    splitOnChar sep (a ++ sep :: r) = a :: splitOnChar sep r := by
  induction a with
  | nil => simp [splitOnChar]
  | cons c rest ih =>
    have hc : ¬ c = sep := fun hEq => h (hEq ▸ List.mem_cons_self ..)
    rw [List.cons_append, splitOnChar, if_neg hc,
      ih (fun hm => h (List.mem_cons_of_mem _ hm))]

/-! ### Bit-stream and base32 lemmas -/

theorem foldl_bits_acc (l : List Bool) : ∀ a : Nat,
    l.foldl (fun x b => 2 * x + b.toNat) a = a * 2 ^ l.length + bitsToNat l := by
  induction l with
  | nil => intro a; simp [bitsToNat]
  | cons b l ih =>
    intro a
    have hb : bitsToNat (b :: l) = b.toNat * 2 ^ l.length + bitsToNat l := by
      rw [bitsToNat, List.foldl_cons]
      rw [ih (2 * 0 + b.toNat)]
      ring_nf
    rw [List.foldl_cons, ih (2 * a + b.toNat), hb, List.length_cons]
    ring_nf

theorem bitsToNat_lt (l : List Bool) : bitsToNat l < 2 ^ l.length := by
  induction l with
  | nil => simp [bitsToNat]
  | cons b l ih =>
    have hb : bitsToNat (b :: l) = b.toNat * 2 ^ l.length + bitsToNat l := by
      rw [bitsToNat, List.foldl_cons]
      rw [foldl_bits_acc l (2 * 0 + b.toNat)]
      ring_nf
    have h2 : (2 : Nat) ^ (b :: l).length = 2 * 2 ^ l.length := by
      rw [List.length_cons, pow_succ]
      ring
    rw [hb, h2]
    cases b
    · simp only [Bool.toNat_false, Nat.zero_mul, Nat.zero_add]
      omega
    · simp only [Bool.toNat_true, Nat.one_mul]
      omega

theorem bitsToNat_append (l1 l2 : List Bool) :
    bitsToNat (l1 ++ l2) = bitsToNat l1 * 2 ^ l2.length + bitsToNat l2 := by
  rw [bitsToNat, List.foldl_append, ← bitsToNat, foldl_bits_acc]

theorem natBits5_bitsToNat (c : List Bool) (h : c.length = 5) :
    natBits5 (bitsToNat c) = c := by
  rcases c with _ | ⟨a, _ | ⟨b, _ | ⟨x, _ | ⟨d, _ | ⟨e, _ | ⟨f, t⟩⟩⟩⟩⟩⟩
  · simp at h
  · simp at h
  · simp at h
  · simp at h
  · simp at h
  · cases a <;> cases b <;> cases x <;> cases d <;> cases e <;> rfl
  · simp at h

set_option maxRecDepth 8000 in
theorem byteBits_bitsToNat : ∀ b < 256, bitsToNat (byteBits b) = b := by decide

theorem chunks5_mem_length : ∀ (l : List Bool), ∀ g ∈ chunks5 l, g.length = 5 := by
  intro l
  induction l using chunks5.induct with
  | case1 => intro g h; simp [chunks5] at h
  | case2 a => intro g h; rw [chunks5] at h; simp at h; subst h; rfl
  | case3 a b => intro g h; rw [chunks5] at h; simp at h; subst h; rfl
  | case4 a b c => intro g h; rw [chunks5] at h; simp at h; subst h; rfl
  | case5 a b c d => intro g h; rw [chunks5] at h; simp at h; subst h; rfl
  | case6 a b c d e rest ih =>
    intro g h
    rw [chunks5] at h
    rcases List.mem_cons.mp h with h | h
    · subst h; rfl
    · exact ih g h

theorem chunks5_count (l : List Bool) : (chunks5 l).length = (l.length + 4) / 5 := by
  induction l using chunks5.induct with
  | case1 => simp [chunks5]
  | case2 a => simp [chunks5]
  | case3 a b => simp [chunks5]
  | case4 a b c => simp [chunks5]
  | case5 a b c d => simp [chunks5]
  | case6 a b c d e rest ih =>
    rw [chunks5, List.length_cons, ih]
    simp only [List.length_cons]
    omega

theorem chunks5_flatten (l : List Bool) :
    (chunks5 l).flatten = l ++ List.replicate (5 * ((l.length + 4) / 5) - l.length) false := by
  induction l using chunks5.induct with
  | case1 => simp [chunks5]
  | case2 a => simp [chunks5, List.replicate]
  | case3 a b => simp [chunks5, List.replicate]
  | case4 a b c => simp [chunks5, List.replicate]
  | case5 a b c d => simp [chunks5, List.replicate]
  | case6 a b c d e rest ih =>
    rw [chunks5, List.flatten_cons, ih]
    simp only [List.length_cons, List.cons_append, List.nil_append]
    have harith : 5 * ((rest.length + 4 + 1 + 1 + 1 + 1 + 1) / 5) - (rest.length + 1 + 1 + 1 + 1 + 1)
        = 5 * ((rest.length + 4) / 5) - rest.length := by omega
    rw [harith]

theorem bitsToBytes_short : ∀ l : List Bool, l.length < 8 → bitsToBytes l = []
  | [], _ => rfl
  | [_], _ => rfl
  | [_, _], _ => rfl
  | [_, _, _], _ => rfl
  | [_, _, _, _], _ => rfl
  | [_, _, _, _, _], _ => rfl
  | [_, _, _, _, _, _], _ => rfl
  | [_, _, _, _, _, _, _], _ => rfl
  | _ :: _ :: _ :: _ :: _ :: _ :: _ :: _ :: rest, hlen => by
    simp only [List.length_cons] at hlen
    omega

theorem bitsToBytes_flatMap (L : List Nat) (hL : ∀ b ∈ L, b < 256) :
    ∀ tail : List Bool, tail.length < 8 →
      bitsToBytes (L.flatMap byteBits ++ tail) = L := by
  induction L with
  | nil =>
    intro tail ht
    rw [List.flatMap_nil, List.nil_append]
    exact bitsToBytes_short tail ht
  | cons b L ih =>
    intro tail ht
    have hb : b < 256 := hL b (List.mem_cons_self ..)
    rw [List.flatMap_cons, List.append_assoc]
    show bitsToBytes (byteBits b ++ (L.flatMap byteBits ++ tail)) = b :: L
    have hsplit : byteBits b ++ (L.flatMap byteBits ++ tail) =
        b.testBit 7 :: b.testBit 6 :: b.testBit 5 :: b.testBit 4 ::
        b.testBit 3 :: b.testBit 2 :: b.testBit 1 :: b.testBit 0 ::
        (L.flatMap byteBits ++ tail) := rfl
    rw [hsplit, bitsToBytes]
    have hfirst : bitsToNat [b.testBit 7, b.testBit 6, b.testBit 5, b.testBit 4,
        b.testBit 3, b.testBit 2, b.testBit 1, b.testBit 0] = b :=
      byteBits_bitsToNat b hb
    rw [hfirst, ih (fun x hx => hL x (List.mem_cons_of_mem _ hx)) tail ht]

theorem flatMap_byteBits_length (L : List Nat) :
    (L.flatMap byteBits).length = 8 * L.length := by
  induction L with
  | nil => rfl
  | cons b L ih =>
    rw [List.flatMap_cons, List.length_append, ih]
    simp [byteBits]
    omega

theorem b32encode_length (L : List Nat) :
    (b32encode L).length = (8 * L.length + 4) / 5 := by
  rw [b32encode, List.length_map, chunks5_count, flatMap_byteBits_length]

theorem b32encode_chars {L : List Nat} {c : Char} (h : c ∈ b32encode L) :
    ∃ v, v < 32 ∧ c = b32Char v := by
  rw [b32encode] at h
  rcases List.mem_map.mp h with ⟨g, hg, rfl⟩
  refine ⟨bitsToNat g, ?_, rfl⟩
  have := bitsToNat_lt g
  rw [chunks5_mem_length _ g hg] at this
  simpa using this

theorem b32Char_val : ∀ v < 32, b32Val (b32Char v) = some v := by decide

theorem b32Char_ne_underscore : ∀ v < 32, b32Char v ≠ Char.ofNat 95 := by decide

theorem b32Char_ne_pad : ∀ v < 32, (b32Char v).toNat ≠ 61 := by decide

theorem underscore_not_mem_b32encode {L : List Nat} : Char.ofNat 95 ∉ b32encode L := by
  intro h
  rcases b32encode_chars h with ⟨v, hv, hc⟩
  exact b32Char_ne_underscore v hv hc.symm

theorem trailingPadCount_zero {s : List Char} (h : ∀ c ∈ s, c.toNat ≠ 61) :
    trailingPadCount s = 0 := by
  rw [trailingPadCount]
  cases hrev : s.reverse with
  | nil => simp
  | cons c cs =>
    have hc : c ∈ s := by
      rw [← List.mem_reverse, hrev]
      exact List.mem_cons_self ..
    rw [List.takeWhile_cons]
    simp [h c hc]

theorem flatMap_natBits5_of_chunks : ∀ gs : List (List Bool),
    (∀ g ∈ gs, g.length = 5) →
      (gs.map bitsToNat).flatMap natBits5 = gs.flatten := by
  intro gs
  induction gs with
  | nil => intro _; rfl
  | cons g gs ih =>
    intro h
    rw [List.map_cons, List.flatMap_cons, List.flatten_cons,
      natBits5_bitsToNat g (h g (List.mem_cons_self ..)),
      ih (fun x hx => h x (List.mem_cons_of_mem _ hx))]

theorem b32decode_encode (L : List Nat) (hL : ∀ b ∈ L, b < 256) :
    b32decode (b32encode L) = some L := by
  have hall : (b32encode L).all (fun c => (b32Val c).isSome) = true := by
    rw [List.all_eq_true]
    intro c hc
    rcases b32encode_chars hc with ⟨v, hv, rfl⟩
    rw [b32Char_val v hv]
    rfl
  rw [b32decode, if_pos hall]
  have hmap : (b32encode L).map (fun c => (b32Val c).getD 0) =
      (chunks5 (L.flatMap byteBits)).map bitsToNat := by
    rw [b32encode, List.map_map]
    apply List.map_congr_left
    intro g hg
    have hlen : g.length = 5 := chunks5_mem_length _ g hg
    have hlt : bitsToNat g < 32 := by
      have := bitsToNat_lt g
      rw [hlen] at this
      simpa using this
    simp only [Function.comp_apply]
    rw [b32Char_val _ hlt]
    rfl
  rw [hmap, flatMap_natBits5_of_chunks _ (chunks5_mem_length _),
    chunks5_flatten, flatMap_byteBits_length]
  have hpadlen : 5 * ((8 * L.length + 4) / 5) - 8 * L.length < 8 := by omega
  rw [bitsToBytes_flatMap L hL _ (by rw [List.length_replicate]; exact hpadlen)]
  have htrail : trailingPadCount (b32encode L) = 0 := by
    apply trailingPadCount_zero
    intro c hc
    rcases b32encode_chars hc with ⟨v, hv, rfl⟩
    exact b32Char_ne_pad v hv
  rw [htrail, b32encode_length, Nat.sub_zero]
  have hn : (8 * L.length + 4) / 5 * 5 / 8 = L.length := by omega
  rw [hn, List.take_length]

/-! ### Structure of generated keys -/

theorem charOfNat_inj {m n : Nat} (hm : m < 55296) (hn : n < 55296)
    (h : Char.ofNat m = Char.ofNat n) : m = n := by
  have := congrArg Char.toNat h
  rwa [charOfNat_toNat hm, charOfNat_toNat hn] at this

theorem underscore_not_mem_vstr {i : Int} :
    Char.ofNat 95 ∉ Char.ofNat 118 :: intChars i := by
  intro h
  rcases List.mem_cons.mp h with h | h
  · exact absurd (charOfNat_inj (by omega) (by omega) h) (by omega)
  · exact underscore_not_mem_intChars h

theorem generate_key_split (sha256 : List Nat → List Nat) (svc : ApiKeyService)
    (hp : Char.ofNat 95 ∉ svc.pfx) (he : Char.ofNat 95 ∉ svc.environment)
    (rb : List Nat) (ts : Nat) :
    splitOnChar (Char.ofNat 95) (generate_api_key sha256 svc rb ts).1 =
      [svc.pfx, svc.environment, Char.ofNat 118 :: intChars svc.version,
       natChars ts, b32encode rb,
       b32encode ((sha256 (checksumInput svc rb ts)).take 4)] := by
  show splitOnChar (Char.ofNat 95)
      (svc.pfx ++ Char.ofNat 95 ::
        (svc.environment ++ Char.ofNat 95 ::
          ((Char.ofNat 118 :: intChars svc.version) ++ Char.ofNat 95 ::
            (natChars ts ++ Char.ofNat 95 ::
              (b32encode rb ++ Char.ofNat 95 ::
                b32encode ((sha256 (checksumInput svc rb ts)).take 4)))))) = _
  rw [splitOnChar_append hp, splitOnChar_append he,
    splitOnChar_append underscore_not_mem_vstr,
    splitOnChar_append underscore_not_mem_natChars,
    splitOnChar_append underscore_not_mem_b32encode,
    splitOnChar_of_not_mem underscore_not_mem_b32encode]

theorem validate_generate_ok (sha256 : List Nat → List Nat)
    (hbytes : ∀ l, ∀ b ∈ sha256 l, b < 256) (svc : ApiKeyService)
    (hp : Char.ofNat 95 ∉ svc.pfx) (he : Char.ofNat 95 ∉ svc.environment)
    (rb : List Nat) (hrb : ∀ b ∈ rb, b < 256) (ts : Nat) (hts : ts < 2 ^ 32) :
    validate_api_key_format sha256 svc (generate_api_key sha256 svc rb ts).1 =
      .ok () := by
  rw [validate_api_key_format, generate_key_split sha256 svc hp he rb ts]
  have hcks : ∀ b ∈ (sha256 (checksumInput svc rb ts)).take 4, b < 256 :=
    fun b hb => hbytes _ b (List.mem_of_mem_take hb)
  simp only
  rw [if_neg (by simp)]
  rw [if_neg (by simp [startsWithChar])]
  rw [parseU32_natChars hts]
  rw [b32decode_encode rb hrb]
  rw [b32decode_encode _ hcks]
  rw [checksumInput]
  simp

/-! ### Flipping the final checksum character -/

theorem b32Val_lt {c : Char} {v : Nat} (h : b32Val c = some v) : v < 32 := by
  simp only [b32Val] at h
  split_ifs at h <;>
    first
      | (injection h with h'; omega)
      | exact absurd h (by simp)

theorem b32encode_four (b0 b1 b2 b3 : Nat) :
    b32encode [b0, b1, b2, b3] =
      [b32Char (bitsToNat [b0.testBit 7, b0.testBit 6, b0.testBit 5, b0.testBit 4, b0.testBit 3]),
       b32Char (bitsToNat [b0.testBit 2, b0.testBit 1, b0.testBit 0, b1.testBit 7, b1.testBit 6]),
       b32Char (bitsToNat [b1.testBit 5, b1.testBit 4, b1.testBit 3, b1.testBit 2, b1.testBit 1]),
       b32Char (bitsToNat [b1.testBit 0, b2.testBit 7, b2.testBit 6, b2.testBit 5, b2.testBit 4]),
       b32Char (bitsToNat [b2.testBit 3, b2.testBit 2, b2.testBit 1, b2.testBit 0, b3.testBit 7]),
       b32Char (bitsToNat [b3.testBit 6, b3.testBit 5, b3.testBit 4, b3.testBit 3, b3.testBit 2]),
       b32Char (bitsToNat [b3.testBit 1, b3.testBit 0, false, false, false])] := by
  rw [b32encode]
  simp only [List.flatMap_cons, List.flatMap_nil, byteBits, List.cons_append,
    List.nil_append, List.append_nil]
  rw [chunks5, chunks5, chunks5, chunks5, chunks5, chunks5, chunks5]
  rfl

set_option maxRecDepth 8000 in
theorem bits6_val : ∀ b < 256, bitsToNat [b.testBit 7, b.testBit 6, b.testBit 5,
    b.testBit 4, b.testBit 3, b.testBit 2] = b / 4 := by decide

set_option maxRecDepth 8000 in
theorem bits2_val : ∀ v < 32, bitsToNat [v.testBit 4, v.testBit 3] = v / 8 := by decide

set_option maxRecDepth 8000 in
theorem bits_last_val : ∀ b < 256, bitsToNat [b.testBit 1, b.testBit 0,
    false, false, false] = b % 4 * 8 := by decide

theorem flip_decode (b0 b1 b2 b3 : Nat) (h0 : b0 < 256) (h1 : b1 < 256)
    (h2 : b2 < 256) (h3 : b3 < 256) (c : Char) (v : Nat)
    (hc : b32Val c = some v) (hpad : c.toNat ≠ 61) :
    b32decode ((b32encode [b0, b1, b2, b3]).dropLast ++ [c]) =
      some [b0, b1, b2, b3 / 4 * 4 + v / 8] := by
  have hv : v < 32 := b32Val_lt hc
  rw [b32encode_four]
  simp only [List.dropLast, List.cons_append, List.nil_append]
  have hlt : ∀ x : List Bool, x.length = 5 → bitsToNat x < 32 := by
    intro x hx
    have := bitsToNat_lt x
    rw [hx] at this
    simpa using this
  have hval5 : ∀ x1 x2 x3 x4 x5 : Bool,
      b32Val (b32Char (bitsToNat [x1, x2, x3, x4, x5])) =
        some (bitsToNat [x1, x2, x3, x4, x5]) := by
    intro x1 x2 x3 x4 x5
    exact b32Char_val _ (hlt _ rfl)
  have hnb5 : ∀ x1 x2 x3 x4 x5 : Bool,
      natBits5 (bitsToNat [x1, x2, x3, x4, x5]) = [x1, x2, x3, x4, x5] := by
    intro x1 x2 x3 x4 x5
    exact natBits5_bitsToNat _ rfl
  have hpad5 : ∀ x1 x2 x3 x4 x5 : Bool,
      (b32Char (bitsToNat [x1, x2, x3, x4, x5])).toNat ≠ 61 := by
    intro x1 x2 x3 x4 x5
    exact b32Char_ne_pad _ (hlt _ rfl)
  rw [b32decode]
  rw [if_pos]
  · rw [trailingPadCount_zero]
    · simp only [List.map_cons, List.map_nil, hval5, hc, Option.getD_some]
      simp only [List.flatMap_cons, List.flatMap_nil, hnb5]
      simp only [natBits5, List.cons_append, List.nil_append, List.append_nil]
      rw [bitsToBytes, bitsToBytes, bitsToBytes, bitsToBytes,
        bitsToBytes_short _ (by simp)]
      have hbyte : ∀ b : Nat, b < 256 →
          bitsToNat [b.testBit 7, b.testBit 6, b.testBit 5, b.testBit 4,
            b.testBit 3, b.testBit 2, b.testBit 1, b.testBit 0] = b :=
        fun b hb => byteBits_bitsToNat b hb
      rw [hbyte b0 h0, hbyte b1 h1, hbyte b2 h2]
      have hlast : bitsToNat [b3.testBit 7, b3.testBit 6, b3.testBit 5, b3.testBit 4,
          b3.testBit 3, b3.testBit 2, v.testBit 4, v.testBit 3] = b3 / 4 * 4 + v / 8 := by
        have happ := bitsToNat_append [b3.testBit 7, b3.testBit 6, b3.testBit 5, b3.testBit 4,
          b3.testBit 3, b3.testBit 2] [v.testBit 4, v.testBit 3]
        simp only [List.cons_append, List.nil_append] at happ
        rw [happ, bits6_val b3 h3, bits2_val v hv]
        norm_num
      rw [hlast]
      simp
    · intro x hx
      simp only [List.mem_cons, List.not_mem_nil, or_false] at hx
      rcases hx with h | h | h | h | h | h | h <;> subst h
      · exact hpad5 _ _ _ _ _
      · exact hpad5 _ _ _ _ _
      · exact hpad5 _ _ _ _ _
      · exact hpad5 _ _ _ _ _
      · exact hpad5 _ _ _ _ _
      · exact hpad5 _ _ _ _ _
      · exact hpad
  · rw [List.all_eq_true]
    intro x hx
    simp only [List.mem_cons, List.not_mem_nil, or_false] at hx
    rcases hx with h | h | h | h | h | h | h <;> subst h
    · rw [hval5]; rfl
    · rw [hval5]; rfl
    · rw [hval5]; rfl
    · rw [hval5]; rfl
    · rw [hval5]; rfl
    · rw [hval5]; rfl
    · rw [hc]; rfl

theorem trailingPad_append_one {s : List Char} (h : ∀ c ∈ s, c.toNat ≠ 61) :
    trailingPadCount (s ++ [Char.ofNat 61]) = 1 := by
  rw [trailingPadCount]
  have hrev : (s ++ [Char.ofNat 61]).reverse = Char.ofNat 61 :: s.reverse := by simp
  rw [hrev, List.takeWhile_cons, if_pos (by decide)]
  have htw : List.takeWhile (fun c => c.toNat = 61) s.reverse = [] := by
    cases hr : s.reverse with
    | nil => rfl
    | cons c cs =>
      have hc : c ∈ s := by
        rw [← List.mem_reverse, hr]
        exact List.mem_cons_self ..
      rw [List.takeWhile_cons, if_neg (by simpa using h c hc)]
  rw [htw]
  rfl

/-- Decoding the checksum field with its final character replaced by the
padding character: the crate trims the trailing pad from the length
computation, so only three bytes come back. -/
theorem flip_decode_pad (b0 b1 b2 b3 : Nat) (h0 : b0 < 256) (h1 : b1 < 256)
    (h2 : b2 < 256) (h3 : b3 < 256) :
    b32decode ((b32encode [b0, b1, b2, b3]).dropLast ++ [Char.ofNat 61]) =
      some [b0, b1, b2] := by
  rw [b32encode_four]
  simp only [List.dropLast, List.cons_append, List.nil_append]
  have hlt : ∀ x : List Bool, x.length = 5 → bitsToNat x < 32 := by
    intro x hx
    have := bitsToNat_lt x
    rw [hx] at this
    simpa using this
  have hval5 : ∀ x1 x2 x3 x4 x5 : Bool,
      b32Val (b32Char (bitsToNat [x1, x2, x3, x4, x5])) =
        some (bitsToNat [x1, x2, x3, x4, x5]) := by
    intro x1 x2 x3 x4 x5
    exact b32Char_val _ (hlt _ rfl)
  have hnb5 : ∀ x1 x2 x3 x4 x5 : Bool,
      natBits5 (bitsToNat [x1, x2, x3, x4, x5]) = [x1, x2, x3, x4, x5] := by
    intro x1 x2 x3 x4 x5
    exact natBits5_bitsToNat _ rfl
  have hpad5 : ∀ x1 x2 x3 x4 x5 : Bool,
      (b32Char (bitsToNat [x1, x2, x3, x4, x5])).toNat ≠ 61 := by
    intro x1 x2 x3 x4 x5
    exact b32Char_ne_pad _ (hlt _ rfl)
  have h61 : b32Val (Char.ofNat 61) = some 0 := by decide
  rw [b32decode]
  rw [if_pos]
  · have htc : trailingPadCount
        [b32Char (bitsToNat [b0.testBit 7, b0.testBit 6, b0.testBit 5, b0.testBit 4, b0.testBit 3]),
         b32Char (bitsToNat [b0.testBit 2, b0.testBit 1, b0.testBit 0, b1.testBit 7, b1.testBit 6]),
         b32Char (bitsToNat [b1.testBit 5, b1.testBit 4, b1.testBit 3, b1.testBit 2, b1.testBit 1]),
         b32Char (bitsToNat [b1.testBit 0, b2.testBit 7, b2.testBit 6, b2.testBit 5, b2.testBit 4]),
         b32Char (bitsToNat [b2.testBit 3, b2.testBit 2, b2.testBit 1, b2.testBit 0, b3.testBit 7]),
         b32Char (bitsToNat [b3.testBit 6, b3.testBit 5, b3.testBit 4, b3.testBit 3, b3.testBit 2]),
         Char.ofNat 61] = 1 := by
      have h6 : ∀ c ∈
          [b32Char (bitsToNat [b0.testBit 7, b0.testBit 6, b0.testBit 5, b0.testBit 4, b0.testBit 3]),
           b32Char (bitsToNat [b0.testBit 2, b0.testBit 1, b0.testBit 0, b1.testBit 7, b1.testBit 6]),
           b32Char (bitsToNat [b1.testBit 5, b1.testBit 4, b1.testBit 3, b1.testBit 2, b1.testBit 1]),
           b32Char (bitsToNat [b1.testBit 0, b2.testBit 7, b2.testBit 6, b2.testBit 5, b2.testBit 4]),
           b32Char (bitsToNat [b2.testBit 3, b2.testBit 2, b2.testBit 1, b2.testBit 0, b3.testBit 7]),
           b32Char (bitsToNat [b3.testBit 6, b3.testBit 5, b3.testBit 4, b3.testBit 3, b3.testBit 2])],
          c.toNat ≠ 61 := by
        intro x hx
        simp only [List.mem_cons, List.not_mem_nil, or_false] at hx
        rcases hx with h | h | h | h | h | h <;> subst h
        · exact hpad5 _ _ _ _ _
        · exact hpad5 _ _ _ _ _
        · exact hpad5 _ _ _ _ _
        · exact hpad5 _ _ _ _ _
        · exact hpad5 _ _ _ _ _
        · exact hpad5 _ _ _ _ _
      have := trailingPad_append_one h6
      simpa using this
    rw [htc]
    simp only [List.map_cons, List.map_nil, hval5, h61, Option.getD_some]
    simp only [List.flatMap_cons, List.flatMap_nil, hnb5]
    have hz : natBits5 0 = [false, false, false, false, false] := by decide
    simp only [hz, List.cons_append, List.nil_append, List.append_nil]
    rw [bitsToBytes, bitsToBytes, bitsToBytes, bitsToBytes,
      bitsToBytes_short _ (by simp)]
    have hbyte : ∀ b : Nat, b < 256 →
        bitsToNat [b.testBit 7, b.testBit 6, b.testBit 5, b.testBit 4,
          b.testBit 3, b.testBit 2, b.testBit 1, b.testBit 0] = b :=
      fun b hb => byteBits_bitsToNat b hb
    rw [hbyte b0 h0, hbyte b1 h1, hbyte b2 h2]
    simp
  · rw [List.all_eq_true]
    intro x hx
    simp only [List.mem_cons, List.not_mem_nil, or_false] at hx
    rcases hx with h | h | h | h | h | h | h <;> subst h
    · rw [hval5]; rfl
    · rw [hval5]; rfl
    · rw [hval5]; rfl
    · rw [hval5]; rfl
    · rw [hval5]; rfl
    · rw [hval5]; rfl
    · rw [h61]; rfl

/-! ### Rate limiter lemmas -/

theorem lookupEntry_filter_none {id : List Char} {l : Entries}
    (h : lookupEntry id l = none) (p : List Char × RateLimitEntry → Bool) :
    lookupEntry id (l.filter p) = none := by
  induction l with
  | nil => rfl
  | cons x l ih =>
    rw [lookupEntry] at h
    by_cases hk : x.1 = id
    · rw [if_pos hk] at h; exact absurd h (by simp)
    · rw [if_neg hk] at h
      rw [List.filter_cons]
      split
      · show lookupEntry id (x :: _) = none
        rw [lookupEntry, if_neg hk]
        exact ih h
      · exact ih h

theorem lookupEntry_filter_of_kept {id : List Char} {l : Entries} {e : RateLimitEntry}
    {p : List Char × RateLimitEntry → Bool} (h : lookupEntry id l = some e)
    (hp : p (id, e) = true) : lookupEntry id (l.filter p) = some e := by
  induction l with
  | nil => simp [lookupEntry] at h
  | cons x l ih =>
    obtain ⟨k, e0⟩ := x
    rw [lookupEntry] at h
    by_cases hk : k = id
    · subst hk
      rw [if_pos rfl] at h
      injection h with h2
      subst h2
      rw [List.filter_cons, if_pos (by simpa using hp)]
      rw [lookupEntry, if_pos rfl]
    · rw [if_neg hk] at h
      rw [List.filter_cons]
      split
      · show lookupEntry id ((k, e0) :: _) = some e
        rw [lookupEntry, if_neg hk]
        exact ih h
      · exact ih h

theorem lookupEntry_append_self {id : List Char} {base : Entries}
    (h : lookupEntry id base = none) (e : RateLimitEntry) :
    lookupEntry id (base ++ [(id, e)]) = some e := by
  induction base with
  | nil => simp [lookupEntry]
  | cons x l ih =>
    rw [lookupEntry] at h
    by_cases hk : x.1 = id
    · rw [if_pos hk] at h; exact absurd h (by simp)
    · rw [if_neg hk] at h
      rw [List.cons_append, lookupEntry, if_neg hk]
      exact ih h

theorem upsertEntry_of_none {id : List Char} {l : Entries}
    (h : lookupEntry id l = none) (e : RateLimitEntry) :
    upsertEntry id e l = l ++ [(id, e)] := by
  induction l with
  | nil => rfl
  | cons x l ih =>
    rw [lookupEntry] at h
    by_cases hk : x.1 = id
    · rw [if_pos hk] at h; exact absurd h (by simp)
    · rw [if_neg hk] at h
      rw [upsertEntry]
      cases x with
      | mk k e0 =>
        rw [if_neg hk, ih h]
        rfl

theorem upsertEntry_append {id : List Char} {base : Entries}
    (h : lookupEntry id base = none) (e e' : RateLimitEntry) :
    upsertEntry id e' (base ++ [(id, e)]) = base ++ [(id, e')] := by
  induction base with
  | nil => simp [upsertEntry]
  | cons x l ih =>
    rw [lookupEntry] at h
    by_cases hk : x.1 = id
    · rw [if_pos hk] at h; exact absurd h (by simp)
    · rw [if_neg hk] at h
      rw [List.cons_append, upsertEntry]
      cases x with
      | mk k e0 =>
        rw [if_neg hk, ih h]
        rfl

theorem upsertEntry_lookup_self (id : List Char) (e : RateLimitEntry) (l : Entries) :
    lookupEntry id (upsertEntry id e l) = some e := by
  induction l with
  | nil => simp [upsertEntry, lookupEntry]
  | cons x l ih =>
    rw [upsertEntry]
    cases x with
    | mk k e0 =>
      by_cases hk : k = id
      · rw [if_pos hk, lookupEntry, if_pos rfl]
      · rw [if_neg hk, lookupEntry, if_neg hk]
        exact ih

/-- Outcome of a single in-window call on an entry holding count `k`:
state shape is preserved and the result depends on `k` against the caps. -/
theorem check_step_live (c : RateLimitConfig) (id : List Char) (t0 t : Nat)
    (base : Entries) (k : Nat) (hb : lookupEntry id base = none)
    (ht0 : t0 ≤ t) (ht : t - t0 < windowNanos c) :
    check_rate_limit c (base ++ [(id, ⟨k, t0⟩)]) id t =
      (if c.burst_limit ≤ k then .error .BurstLimitExceeded
       else if c.requests_per_minute ≤ k then .error .LimitExceeded
       else .ok (),
       purgeStale c t base ++
         [(id, ⟨if c.burst_limit ≤ k then k
                else if c.requests_per_minute ≤ k then k else k + 1, t0⟩)]) := by
  have hpurge : purgeStale c t (base ++ [(id, ⟨k, t0⟩)]) =
      purgeStale c t base ++ [(id, ⟨k, t0⟩)] := by
    rw [purgeStale, List.filter_append]
    congr 1
    rw [List.filter_cons, if_pos (by simpa using ht)]
    rfl
  have hbase' : lookupEntry id (purgeStale c t base) = none :=
    lookupEntry_filter_none hb _
  have hlook : lookupEntry id (purgeStale c t base ++ [(id, ⟨k, t0⟩)]) =
      some ⟨k, t0⟩ := lookupEntry_append_self hbase' _
  have hreset : entryAfterReset c t (⟨k, t0⟩ : RateLimitEntry) = ⟨k, t0⟩ := by
    rw [entryAfterReset, if_neg (show ¬ windowNanos c ≤ t - t0 by omega)]
  rw [check_rate_limit, hpurge, hlook]
  simp only [Option.getD_some, hreset]
  split_ifs with h1 h2
  · rw [upsertEntry_append hbase']
  · rw [upsertEntry_append hbase']
  · rw [upsertEntry_append hbase']

/-- Results and final state of a run of in-window calls starting from
count `k`: exactly the calls that keep the count below `min R B` are
admitted, every later call is denied with the same error kind, and the
entry keeps its window start. -/
theorem checkSeq_shape (c : RateLimitConfig) (id : List Char) (t0 : Nat) :
    ∀ (ts : List Nat) (base : Entries) (k : Nat),
      lookupEntry id base = none →
      k ≤ min c.requests_per_minute c.burst_limit →
      (∀ t ∈ ts, t0 ≤ t ∧ t - t0 < windowNanos c) →
      (checkSeq c (base ++ [(id, ⟨k, t0⟩)]) id ts).1 =
        (List.range ts.length).map (fun i =>
          if k + i < min c.requests_per_minute c.burst_limit then .ok ()
          else .error (if c.burst_limit ≤ c.requests_per_minute
            then RateLimitError.BurstLimitExceeded else RateLimitError.LimitExceeded)) ∧
      ∃ base2, lookupEntry id base2 = none ∧
        (checkSeq c (base ++ [(id, ⟨k, t0⟩)]) id ts).2 =
          base2 ++ [(id, ⟨min (k + ts.length)
            (min c.requests_per_minute c.burst_limit), t0⟩)] := by
  intro ts
  induction ts with
  | nil =>
    intro base k hb hk _
    refine ⟨by simp [checkSeq], base, hb, ?_⟩
    show base ++ [(id, ⟨k, t0⟩)] = _
    have hmin : min (k + ([] : List Nat).length) (min c.requests_per_minute c.burst_limit) = k := by
      simp only [List.length_nil]
      omega
    rw [hmin]
  | cons t ts ih =>
    intro base k hb hk hts
    have ht := hts t (List.mem_cons_self ..)
    have hstep := check_step_live c id t0 t base k hb ht.1 ht.2
    have hts' : ∀ x ∈ ts, t0 ≤ x ∧ x - t0 < windowNanos c :=
      fun x hx => hts x (List.mem_cons_of_mem _ hx)
    have hbase' : lookupEntry id (purgeStale c t base) = none :=
      lookupEntry_filter_none hb _
    have hcons : checkSeq c (base ++ [(id, ⟨k, t0⟩)]) id (t :: ts) =
        ((check_rate_limit c (base ++ [(id, ⟨k, t0⟩)]) id t).1 ::
          (checkSeq c (check_rate_limit c (base ++ [(id, ⟨k, t0⟩)]) id t).2 id ts).1,
         (checkSeq c (check_rate_limit c (base ++ [(id, ⟨k, t0⟩)]) id t).2 id ts).2) := rfl
    rw [hcons, hstep]
    by_cases hlt : k < min c.requests_per_minute c.burst_limit
    · have hnb : ¬ c.burst_limit ≤ k := by omega
      have hnr : ¬ c.requests_per_minute ≤ k := by omega
      rw [if_neg hnb, if_neg hnr]
      rw [show (if c.burst_limit ≤ k then k
          else if c.requests_per_minute ≤ k then k else k + 1) = k + 1 by
        rw [if_neg hnb, if_neg hnr]]
      have hrec := ih (purgeStale c t base) (k + 1) hbase' (by omega) hts'
      refine ⟨?_, ?_⟩
      · show Except.ok () ::
            (checkSeq c (purgeStale c t base ++ [(id, ⟨k + 1, t0⟩)]) id ts).1 = _
        rw [hrec.1]
        rw [List.length_cons, List.range_succ_eq_map, List.map_cons, List.map_map]
        rw [if_pos (show k + 0 < min c.requests_per_minute c.burst_limit by omega)]
        congr 1
        apply List.map_congr_left
        intro i _
        simp only [Function.comp_apply, Nat.succ_eq_add_one]
        rw [show k + (i + 1) = k + 1 + i by omega]
      · rcases hrec.2 with ⟨base2, hb2, hrw⟩
        refine ⟨base2, hb2, ?_⟩
        show (checkSeq c (purgeStale c t base ++ [(id, ⟨k + 1, t0⟩)]) id ts).2 = _
        rw [hrw]
        have : min (k + 1 + ts.length) (min c.requests_per_minute c.burst_limit) =
            min (k + (t :: ts).length) (min c.requests_per_minute c.burst_limit) := by
          simp only [List.length_cons]
          omega
        rw [this]
    · have herr : (if c.burst_limit ≤ k then
            (Except.error RateLimitError.BurstLimitExceeded : Except RateLimitError Unit)
          else if c.requests_per_minute ≤ k then .error .LimitExceeded else .ok ()) =
          .error (if c.burst_limit ≤ c.requests_per_minute
            then RateLimitError.BurstLimitExceeded else RateLimitError.LimitExceeded) := by
        split_ifs <;> first | rfl | omega
      have hcount : (if c.burst_limit ≤ k then k
          else if c.requests_per_minute ≤ k then k else k + 1) = k := by
        split_ifs <;> omega
      rw [herr, hcount]
      have hrec := ih (purgeStale c t base) k hbase' hk hts'
      refine ⟨?_, ?_⟩
      · show Except.error _ ::
            (checkSeq c (purgeStale c t base ++ [(id, ⟨k, t0⟩)]) id ts).1 = _
        rw [hrec.1]
        rw [List.length_cons, List.range_succ_eq_map, List.map_cons, List.map_map]
        rw [if_neg (show ¬ k + 0 < min c.requests_per_minute c.burst_limit by omega)]
        congr 1
        apply List.map_congr_left
        intro i _
        simp only [Function.comp_apply, Nat.succ_eq_add_one]
        rw [show k + (i + 1) = k + 1 + i by omega]
        rw [if_neg (show ¬ k + 1 + i < min c.requests_per_minute c.burst_limit by omega),
          if_neg (show ¬ k + i < min c.requests_per_minute c.burst_limit by omega)]
      · rcases hrec.2 with ⟨base2, hb2, hrw⟩
        refine ⟨base2, hb2, ?_⟩
        show (checkSeq c (purgeStale c t base ++ [(id, ⟨k, t0⟩)]) id ts).2 = _
        rw [hrw]
        have : min (k + ts.length) (min c.requests_per_minute c.burst_limit) =
            min (k + (t :: ts).length) (min c.requests_per_minute c.burst_limit) := by
          simp only [List.length_cons]
          omega
        rw [this]

theorem list_take_four {l : List Nat} (h : 4 ≤ l.length) :
    ∃ a b c d t, l = a :: b :: c :: d :: t := by
  rcases l with _ | ⟨a, _ | ⟨b, _ | ⟨c, _ | ⟨d, t⟩⟩⟩⟩
  · simp at h
  · simp at h
  · simp at h
  · simp at h
  · exact ⟨a, b, c, d, t, rfl⟩

/-! ### Claim C9: issued claims always satisfy exp = iat + 3600 > iat -/

/-- C9: every claim set built by `generate_access_token` has `exp` equal to
`iat` plus the fixed one-hour (3600 s) validity window, hence `exp` is
strictly greater than `iat` in every issued token. -/
theorem C9_exp_strictly_after_iat (secret_key : List Char) (user_id api_key_id : Int)
    (scopes : List (List Char)) (now : Int) :
    (generate_access_token secret_key user_id api_key_id scopes now).claims.exp =
      (generate_access_token secret_key user_id api_key_id scopes now).claims.iat + 3600 ∧
    (generate_access_token secret_key user_id api_key_id scopes now).claims.iat <
      (generate_access_token secret_key user_id api_key_id scopes now).claims.exp := by
  refine ⟨rfl, ?_⟩
  show now < now + 3600
  omega

/-! ### Claim C8: token round-trip preserves subject, key id and scopes -/

/-- C8: for every subject id, key id and scope list,
`generate_access_token` immediately followed by `validate_access_token`
under the same secret succeeds, and the returned claims carry the subject
id rendered in decimal as `sub`, the same `api_key_id`, and the issued
scope list (for any non-negative decoder leeway). -/
theorem C8_token_roundtrip (leeway : Int) (hl : 0 ≤ leeway) (secret_key : List Char)
    (user_id api_key_id : Int) (scopes : List (List Char)) (now : Int) :
    validate_access_token leeway secret_key
      (generate_access_token secret_key user_id api_key_id scopes now) now =
      .ok { sub := intChars user_id, api_key_id := api_key_id, scopes := scopes,
            exp := now + 3600, iat := now } := by
  rw [validate_access_token, jwtDecode]
  rw [if_neg (by simp [generate_access_token])]
  rw [if_neg (show ¬ (generate_access_token secret_key user_id api_key_id scopes
      now).claims.exp < now - leeway by
    show ¬ now + 3600 < now - leeway
    omega)]
  show (if (generate_access_token secret_key user_id api_key_id scopes
      now).claims.exp < now then _ else _) = _
  rw [if_neg (show ¬ (generate_access_token secret_key user_id api_key_id scopes
      now).claims.exp < now by
    show ¬ now + 3600 < now
    omega)]
  rfl

/-- Witness for C8 at a concrete instantiation. -/
theorem C8_token_roundtrip_witness :
    validate_access_token 60 [ 's'] (generate_access_token [ 's'] 7 9 [['r']] 1000) 1000 =
      .ok { sub := intChars 7, api_key_id := 9, scopes := [['r']],
            exp := 1000 + 3600, iat := 1000 } :=
  C8_token_roundtrip 60 (by norm_num) [ 's'] 7 9 [['r']] 1000

/-! ### Claim C2: expired tokens and the TokenExpired kind -/

/-- C2 counterexample: a token signed with the service's own secret whose
exp (900) is before the current time (1000) by more than the decoder's
leeway is rejected by the decode step itself, and the blanket `From`
conversion surfaces it as InvalidToken — not TokenExpired as the claim
states. -/
theorem C2_counterexample :
    validate_access_token 60 [ 's']
      { claims := { sub := [], api_key_id := 0, scopes := [], exp := 900, iat := 840 },
        secret := [ 's'] } 1000 = .error .InvalidToken ∧
    ApiError.InvalidToken ≠ ApiError.TokenExpired := by
  exact ⟨rfl, by decide⟩

/-- C2 amended: for a token whose signature verifies, TokenExpired is
returned exactly when `exp` lies in the decoder's leeway band
`now - leeway ≤ exp < now`; a token whose `exp` is more than the leeway
before the current time fails at decode and surfaces as InvalidToken
(jsonwebtoken's default leeway is 60 s in current releases, 0 in older
ones; the theorem holds for any non-negative leeway). -/
theorem C2_expired_token_amended (leeway : Int) (hl : 0 ≤ leeway)
    (secret_key : List Char) (token : Jwt) (hsig : token.secret = secret_key)
    (now : Int) :
    (validate_access_token leeway secret_key token now = .error .TokenExpired ↔
      now - leeway ≤ token.claims.exp ∧ token.claims.exp < now) ∧
    (token.claims.exp < now - leeway →
      validate_access_token leeway secret_key token now = .error .InvalidToken) := by
  have hdec : jwtDecode leeway token secret_key now =
      (if token.claims.exp < now - leeway then .error .ExpiredSignature
       else .ok token.claims) := by
    rw [jwtDecode, if_neg (by simp [hsig])]
  by_cases h1 : token.claims.exp < now - leeway
  · rw [validate_access_token, hdec, if_pos h1]
    refine ⟨⟨fun h => ?_, fun h => ?_⟩, fun _ => rfl⟩
    · exact absurd h (by simp [apiErrorOfJwtError])
    · omega
  · rw [validate_access_token, hdec, if_neg h1]
    show ((if token.claims.exp < now then Except.error ApiError.TokenExpired
      else Except.ok token.claims) = .error .TokenExpired ↔ _) ∧ _
    by_cases h2 : token.claims.exp < now
    · rw [if_pos h2]
      exact ⟨⟨fun _ => ⟨by omega, h2⟩, fun _ => rfl⟩, fun h => absurd h (by omega)⟩
    · rw [if_neg h2]
      exact ⟨⟨fun h => absurd h (by simp), fun h => absurd h.2 h2⟩,
        fun h => absurd h (by omega)⟩

/-- Witness for the amended C2 at a concrete token inside the leeway band. -/
theorem C2_expired_token_amended_witness :
    (validate_access_token 60 [ 's']
      { claims := { sub := [], api_key_id := 0, scopes := [], exp := 950, iat := 900 },
        secret := [ 's'] } 1000 = .error .TokenExpired ↔
      (1000 : Int) - 60 ≤ 950 ∧ (950 : Int) < 1000) ∧
    ((950 : Int) < 1000 - 60 →
      validate_access_token 60 [ 's']
        { claims := { sub := [], api_key_id := 0, scopes := [], exp := 950, iat := 900 },
          secret := [ 's'] } 1000 = .error .InvalidToken) :=
  C2_expired_token_amended 60 (by norm_num) [ 's']
    { claims := { sub := [], api_key_id := 0, scopes := [], exp := 950, iat := 900 },
      secret := [ 's'] } rfl 1000

/-! ### Claim C3: get_remaining_requests -/

/-- C3 counterexample: under the default policy (R = 100, B = 20, W = 60 s)
an identifier with no entry gets `burst_limit = 20` from
`get_remaining_requests`, not the per-window cap R = 100 the claim
states. -/
theorem C3_counterexample :
    get_remaining_requests ⟨100, 20, 60⟩ [] ['x'] 0 = 20 ∧ (20 : Nat) ≠ 100 :=
  ⟨rfl, by decide⟩

/-- C3 amended: `get_remaining_requests` returns the burst cap B when no
entry exists, the per-window cap R when the entry's window has elapsed,
and otherwise `min (R - count) (B - count)` clamped to zero. -/
theorem C3_remaining_amended (c : RateLimitConfig) (entries : Entries)
    (id : List Char) (now : Nat) :
    (lookupEntry id entries = none →
      get_remaining_requests c entries id now = c.burst_limit) ∧
    (∀ e, lookupEntry id entries = some e →
      windowNanos c ≤ now - e.window_start →
      get_remaining_requests c entries id now = c.requests_per_minute) ∧
    (∀ e, lookupEntry id entries = some e →
      now - e.window_start < windowNanos c →
      (get_remaining_requests c entries id now : Int) =
        max 0 (min ((c.requests_per_minute : Int) - e.requests)
          ((c.burst_limit : Int) - e.requests))) := by
  refine ⟨fun h => ?_, fun e h helap => ?_, fun e h hlive => ?_⟩
  · rw [get_remaining_requests, h]
  · rw [get_remaining_requests, h]
    simp only
    rw [if_pos helap]
  · rw [get_remaining_requests, h]
    simp only
    rw [if_neg (by omega)]
    omega

/-! ### Claim C10: denied calls leave the entry unchanged -/

/-- C10: for an identifier whose entry's window has not yet elapsed, a
`check_rate_limit` call that is denied leaves that identifier's count and
window start unchanged, and an admitted call increments the count by
exactly one. -/
theorem C10_denial_atomicity (c : RateLimitConfig) (entries : Entries)
    (id : List Char) (now : Nat) (e : RateLimitEntry)
    (hlook : lookupEntry id entries = some e)
    (hlive : now - e.window_start < windowNanos c) :
    (∀ err, (check_rate_limit c entries id now).1 = .error err →
      lookupEntry id (check_rate_limit c entries id now).2 = some e) ∧
    ((check_rate_limit c entries id now).1 = .ok () →
      lookupEntry id (check_rate_limit c entries id now).2 =
        some ⟨e.requests + 1, e.window_start⟩) := by
  have hkept : lookupEntry id (purgeStale c now entries) = some e :=
    lookupEntry_filter_of_kept hlook (by simpa using hlive)
  have hres : entryAfterReset c now e = e := by
    rw [entryAfterReset, if_neg (by omega)]
  rw [check_rate_limit, hkept]
  simp only [Option.getD_some, hres]
  split_ifs with h1 h2
  · exact ⟨fun err _ => by
      cases e
      exact upsertEntry_lookup_self .., fun h => absurd h (by simp)⟩
  · exact ⟨fun err _ => by
      cases e
      exact upsertEntry_lookup_self .., fun h => absurd h (by simp)⟩
  · exact ⟨fun err h => absurd h (by simp), fun _ => upsertEntry_lookup_self ..⟩

/-- Witness for C10: a live entry at the burst cap is denied and keeps its
count and window start. -/
theorem C10_denial_atomicity_witness :
    lookupEntry ['a'] (check_rate_limit ⟨2, 2, 60⟩ [(['a'], ⟨2, 0⟩)] ['a'] 5).2 =
      some ⟨2, 0⟩ :=
  (C10_denial_atomicity ⟨2, 2, 60⟩ [(['a'], ⟨2, 0⟩)] ['a'] 5 ⟨2, 0⟩ (by rfl)
    (by norm_num [windowNanos])).1 .BurstLimitExceeded (by rfl)

/-! ### Claim C6: burst cap evaluated first -/

/-- C6: after purging stale entries and lazily resetting an elapsed
window, `check_rate_limit` returns BurstExceeded exactly when the entry's
count has reached B, LimitExceeded exactly when the count is below B but
has reached R (so that branch is reachable only when the policy sets
B > R), and otherwise admits, storing the count incremented by one. -/
theorem C6_burst_first (c : RateLimitConfig) (entries : Entries)
    (id : List Char) (now : Nat) :
    ((check_rate_limit c entries id now).1 = .error .BurstLimitExceeded ↔
      c.burst_limit ≤ (entryAfterReset c now
        ((lookupEntry id (purgeStale c now entries)).getD ⟨0, now⟩)).requests) ∧
    ((check_rate_limit c entries id now).1 = .error .LimitExceeded ↔
      ((entryAfterReset c now ((lookupEntry id (purgeStale c now entries)).getD
          ⟨0, now⟩)).requests < c.burst_limit ∧
        c.requests_per_minute ≤ (entryAfterReset c now
          ((lookupEntry id (purgeStale c now entries)).getD ⟨0, now⟩)).requests)) ∧
    ((check_rate_limit c entries id now).1 = .ok () ↔
      ((entryAfterReset c now ((lookupEntry id (purgeStale c now entries)).getD
          ⟨0, now⟩)).requests < c.burst_limit ∧
        (entryAfterReset c now ((lookupEntry id (purgeStale c now entries)).getD
          ⟨0, now⟩)).requests < c.requests_per_minute)) ∧
    ((check_rate_limit c entries id now).1 = .ok () →
      lookupEntry id (check_rate_limit c entries id now).2 =
        some ⟨(entryAfterReset c now ((lookupEntry id (purgeStale c now entries)).getD
            ⟨0, now⟩)).requests + 1,
          (entryAfterReset c now ((lookupEntry id (purgeStale c now entries)).getD
            ⟨0, now⟩)).window_start⟩) ∧
    ((check_rate_limit c entries id now).1 = .error .LimitExceeded →
      c.requests_per_minute < c.burst_limit) := by
  rw [check_rate_limit]
  split_ifs with h1 h2
  · refine ⟨⟨fun _ => h1, fun _ => rfl⟩, ⟨fun h => absurd h (by simp), fun h => ?_⟩,
      ⟨fun h => absurd h (by simp), fun h => ?_⟩, fun h => absurd h (by simp),
      fun h => absurd h (by simp)⟩
    · omega
    · omega
  · refine ⟨⟨fun h => absurd h (by simp), fun h => ?_⟩, ⟨fun _ => ⟨by omega, h2⟩,
      fun _ => rfl⟩, ⟨fun h => absurd h (by simp), fun h => ?_⟩,
      fun h => absurd h (by simp), fun _ => by omega⟩
    · omega
    · omega
  · refine ⟨⟨fun h => absurd h (by simp), fun h => ?_⟩,
      ⟨fun h => absurd h (by simp), fun h => ?_⟩, ⟨fun _ => ⟨by omega, by omega⟩,
      fun _ => rfl⟩, fun _ => upsertEntry_lookup_self .., fun h => absurd h (by simp)⟩
    · omega
    · omega

/-! ### Claim C1: generated keys always validate -/

/-- C1: for every configuration with valid (underscore-free) prefix and
environment and any version, and any hash collaborator producing bytes,
the plaintext returned by `generate_api_key` passes
`validate_api_key_format` with ok — neither FormatError nor
ChecksumError — under the same configuration. -/
theorem C1_generate_key_roundtrip (sha256 : List Nat → List Nat)
    (hbytes : ∀ l, ∀ b ∈ sha256 l, b < 256) (svc : ApiKeyService)
    (hp : Char.ofNat 95 ∉ svc.pfx) (he : Char.ofNat 95 ∉ svc.environment)
    (random_bytes : List Nat) (hrb : ∀ b ∈ random_bytes, b < 256)
    (timestamp : Nat) (hts : timestamp < 2 ^ 32) :
    validate_api_key_format sha256 svc
      (generate_api_key sha256 svc random_bytes timestamp).1 = .ok () :=
  validate_generate_ok sha256 hbytes svc hp he random_bytes hrb timestamp hts

/-- Witness for C1 at the concrete toy hash and acme configuration. -/
theorem C1_generate_key_roundtrip_witness :
    validate_api_key_format toySha256 acmeService
      (generate_api_key toySha256 acmeService (List.replicate 20 0) 1700000000).1 =
      .ok () :=
  C1_generate_key_roundtrip toySha256
    (by
      intro l b hb
      rw [toySha256] at hb
      rcases List.mem_map.mp hb with ⟨i, _, rfl⟩
      exact Nat.mod_lt _ (by norm_num))
    acmeService (by decide) (by decide) (List.replicate 20 0)
    (by
      intro b hb
      rw [List.eq_of_mem_replicate hb]
      norm_num)
    1700000000 (by norm_num)

/-! ### Claim C4: validate_api_key on missing and inactive records -/

/-- C4 counterexample: a well-formed generated key whose hash is absent
from the store makes `validate_api_key` surface the propagated database
error (`rusqlite`'s no-rows error through the blanket `From` conversion),
which is a different kind from KeyNotFound — the claim's NotFound kind is
never produced. -/
theorem C4_counterexample :
    validate_api_key toySha256 acmeService (fun _ => none) 0
      (generate_api_key toySha256 acmeService (List.replicate 20 0) 1700000000).1 =
      .error (.Database .QueryReturnedNoRows) ∧
    ApiError.Database RusqliteError.QueryReturnedNoRows ≠ ApiError.KeyNotFound := by
  exact ⟨by decide, by decide⟩

/-- C4 amended: for every key that passes `validate_api_key_format`,
`validate_api_key` returns the opaque propagated Database error (rusqlite
query-returned-no-rows mapped through `From`) when the lookup by the
key's hash finds no stored record — the KeyNotFound kind is never
produced — and returns the KeyInactive kind when a record is found whose
active flag is false. -/
theorem C4_lookup_errors_amended (sha256 : List Nat → List Nat)
    (svc : ApiKeyService) (db : List Char → Option ApiKey) (now : Int)
    (key : List Char)
    (hfmt : validate_api_key_format sha256 svc key = .ok ()) :
    (db (bytesToHex (sha256 (strBytes key))) = none →
      validate_api_key sha256 svc db now key =
        .error (.Database .QueryReturnedNoRows)) ∧
    (∀ row, db (bytesToHex (sha256 (strBytes key))) = some row →
      row.is_active = false →
      validate_api_key sha256 svc db now key = .error .KeyInactive) := by
  have hred : validate_api_key sha256 svc db now key =
      match get_api_key_by_hash db now (bytesToHex (sha256 (strBytes key))) with
      | .error e => .error e
      | .ok api_key =>
        if api_key.is_active = false then .error .KeyInactive else .ok api_key := by
    rw [validate_api_key, hfmt]
  constructor
  · intro h
    rw [hred, get_api_key_by_hash.eq_def, h]
  · intro row h hact
    rw [hred, get_api_key_by_hash.eq_def, h]
    simp [hact]

/-- Witness for the amended C4 against the empty store. -/
theorem C4_lookup_errors_amended_witness :
    validate_api_key toySha256 acmeService (fun _ => none) 0
      (generate_api_key toySha256 acmeService (List.replicate 20 0) 1700000000).1 =
      .error (.Database .QueryReturnedNoRows) :=
  (C4_lookup_errors_amended toySha256 acmeService (fun _ => none) 0
    (generate_api_key toySha256 acmeService (List.replicate 20 0) 1700000000).1
    (by decide)).1 rfl

/-! ### Claim C5: fresh-identifier admission and window reset -/

theorem check_fresh (c : RateLimitConfig) (S : Entries) (id : List Char) (t : Nat)
    (h1 : lookupEntry id (purgeStale c t S) = none)
    (hR : 1 ≤ c.requests_per_minute) (hB : 1 ≤ c.burst_limit) :
    check_rate_limit c S id t = (.ok (), purgeStale c t S ++ [(id, ⟨1, t⟩)]) := by
  rw [check_rate_limit, h1]
  simp only [Option.getD_none]
  have hres : entryAfterReset c t ⟨0, t⟩ = ⟨0, t⟩ := by
    rw [entryAfterReset]
    split <;> rfl
  rw [hres]
  rw [if_neg (show ¬ c.burst_limit ≤ 0 by omega),
    if_neg (show ¬ c.requests_per_minute ≤ 0 by omega)]
  rw [upsertEntry_of_none h1]

/-- C5 counterexample: the policy (R = 5, B = 0, W = 60 s) admits
min(R, B) = 0 calls for a fresh identifier, but even after the window
duration (60 s = 6·10¹⁰ ns here) has fully elapsed the identifier is
still denied, contradicting the claim that it is admitted again once the
window has elapsed. -/
theorem C5_counterexample :
    (check_rate_limit ⟨5, 0, 60⟩
      (check_rate_limit ⟨5, 0, 60⟩ [] ['c'] 0).2 ['c'] 60000000000).1 =
      .error .BurstLimitExceeded := by rfl

/-- C5 amended: for every policy whose caps R and B are both at least one
and every identifier with no prior entry, a sequence of calls within one
window (starting at the first call) admits exactly the first min(R, B)
calls and denies every further call in that window; once the window
duration has elapsed the identifier is admitted again. -/
theorem C5_window_admission_amended (c : RateLimitConfig)
    (hR : 1 ≤ c.requests_per_minute) (hB : 1 ≤ c.burst_limit)
    (entries : Entries) (id : List Char)
    (hfresh : lookupEntry id entries = none)
    (t1 : Nat) (rest : List Nat)
    (hrest : ∀ t ∈ rest, t1 ≤ t ∧ t - t1 < windowNanos c) :
    (checkSeq c entries id (t1 :: rest)).1 =
      (List.range (t1 :: rest).length).map (fun i =>
        if i < min c.requests_per_minute c.burst_limit then .ok ()
        else .error (if c.burst_limit ≤ c.requests_per_minute
          then RateLimitError.BurstLimitExceeded else RateLimitError.LimitExceeded)) ∧
    (∀ t2, windowNanos c ≤ t2 - t1 →
      (check_rate_limit c (checkSeq c entries id (t1 :: rest)).2 id t2).1 = .ok ()) := by
  have h1 : lookupEntry id (purgeStale c t1 entries) = none :=
    lookupEntry_filter_none hfresh _
  have hfirst := check_fresh c entries id t1 h1 hR hB
  have hcons : checkSeq c entries id (t1 :: rest) =
      ((check_rate_limit c entries id t1).1 ::
        (checkSeq c (check_rate_limit c entries id t1).2 id rest).1,
       (checkSeq c (check_rate_limit c entries id t1).2 id rest).2) := rfl
  have hshape := checkSeq_shape c id t1 rest (purgeStale c t1 entries) 1 h1
    (by omega) hrest
  rcases hshape.2 with ⟨base2, hb2, hfin⟩
  constructor
  · rw [hcons, hfirst]
    show Except.ok () ::
        (checkSeq c (purgeStale c t1 entries ++ [(id, ⟨1, t1⟩)]) id rest).1 = _
    rw [hshape.1]
    rw [List.length_cons, List.range_succ_eq_map, List.map_cons, List.map_map]
    rw [if_pos (show 0 < min c.requests_per_minute c.burst_limit by omega)]
    congr 1
    apply List.map_congr_left
    intro i _
    simp only [Function.comp_apply, Nat.succ_eq_add_one]
    rw [show 1 + i = i + 1 by omega]
  · intro t2 ht2
    rw [hcons, hfirst]
    dsimp only
    rw [hfin]
    set cnt := min (1 + rest.length) (min c.requests_per_minute c.burst_limit) with hcnt
    have hpu : purgeStale c t2 (base2 ++ [(id, (⟨cnt, t1⟩ : RateLimitEntry))]) =
        purgeStale c t2 base2 := by
      rw [purgeStale, List.filter_append]
      have hdrop : List.filter
          (fun x => t2 - x.2.window_start < windowNanos c)
          [(id, (⟨cnt, t1⟩ : RateLimitEntry))] = [] := by
        rw [List.filter_cons, if_neg (by simp only [decide_eq_true_eq]; omega)]
        rfl
      rw [hdrop, List.append_nil]
      rfl
    have h2 : lookupEntry id (purgeStale c t2
        (base2 ++ [(id, (⟨cnt, t1⟩ : RateLimitEntry))])) = none := by
      rw [hpu]
      exact lookupEntry_filter_none hb2 _
    rw [check_fresh c _ id t2 h2 hR hB]

/-- Witness for the amended C5: under (R = 3, B = 3, W = 60 s) a fresh
identifier is admitted three times, denied on the fourth in-window call,
and admitted again after the window elapses. -/
theorem C5_window_admission_amended_witness :
    (checkSeq ⟨3, 3, 60⟩ [] ['c'] [0, 1, 2, 3]).1 =
      (List.range 4).map (fun i =>
        if i < min 3 3 then .ok ()
        else .error (if 3 ≤ 3 then RateLimitError.BurstLimitExceeded
          else RateLimitError.LimitExceeded)) ∧
    (∀ t2, windowNanos ⟨3, 3, 60⟩ ≤ t2 - 0 →
      (check_rate_limit ⟨3, 3, 60⟩ (checkSeq ⟨3, 3, 60⟩ [] ['c'] [0, 1, 2, 3]).2
        ['c'] t2).1 = .ok ()) :=
  C5_window_admission_amended ⟨3, 3, 60⟩ (by norm_num) (by norm_num) [] ['c'] rfl 0
    [1, 2, 3] (by
      intro t ht
      refine ⟨by omega, ?_⟩
      rw [windowNanos]
      simp only [List.mem_cons, List.not_mem_nil, or_false] at ht
      rcases ht with rfl | rfl | rfl <;> norm_num)

/-! ### Claim C7: the concrete codec scenario -/

theorem setLast_through (a Y : List Char) (x ch : Char) (hY : Y ≠ []) :
    setLastChar (a ++ x :: Y) ch = a ++ x :: setLastChar Y ch := by
  rw [setLastChar, setLastChar]
  rw [show a ++ x :: Y = (a ++ [x]) ++ Y by simp]
  rw [List.dropLast_append_of_ne_nil _ hY]
  simp [List.append_assoc]

theorem b32encode_four_ne_nil (L : List Nat) (hL : L.length = 4) :
    b32encode L ≠ [] := by
  have := b32encode_length L
  rw [hL] at this
  intro h
  rw [h] at this
  simp at this

theorem underscore_not_mem_setLast {L : List Nat} {ch : Char}
    (hund : ch ≠ Char.ofNat 95) :
    Char.ofNat 95 ∉ setLastChar (b32encode L) ch := by
  rw [setLastChar]
  intro hmem
  rcases List.mem_append.mp hmem with h | h
  · exact underscore_not_mem_b32encode (List.dropLast_subset _ h)
  · rw [List.mem_singleton] at h
    exact hund h.symm

theorem validate_flip_checksum (sha256 : List Nat → List Nat)
    (hlen : ∀ l, 4 ≤ (sha256 l).length)
    (hbytes : ∀ l, ∀ b ∈ sha256 l, b < 256)
    (svc : ApiKeyService) (hp : Char.ofNat 95 ∉ svc.pfx)
    (he : Char.ofNat 95 ∉ svc.environment)
    (rb : List Nat) (hrb : ∀ b ∈ rb, b < 256) (ts : Nat) (hts : ts < 2 ^ 32)
    (ch : Char) (hund : ch ≠ Char.ofNat 95)
    (hcase : b32Val ch = none ∨ ch.toNat = 61 ∨ ∃ v, b32Val ch = some v ∧
      v / 8 ≠ ((sha256 (checksumInput svc rb ts)).getD 3 0) % 4) :
    validate_api_key_format sha256 svc
      (setLastChar (generate_api_key sha256 svc rb ts).1 ch) =
      .error .InvalidChecksum := by
  obtain ⟨b0, b1, b2, b3, tailrest, hout⟩ := list_take_four (hlen (checksumInput svc rb ts))
  have htake : (sha256 (checksumInput svc rb ts)).take 4 = [b0, b1, b2, b3] := by
    rw [hout]
    rfl
  have hb0 : b0 < 256 := hbytes _ b0 (by rw [hout]; exact List.mem_cons_self ..)
  have hb1 : b1 < 256 := hbytes _ b1 (by rw [hout]; simp)
  have hb2 : b2 < 256 := hbytes _ b2 (by rw [hout]; simp)
  have hb3 : b3 < 256 := hbytes _ b3 (by rw [hout]; simp)
  have hgetD : (sha256 (checksumInput svc rb ts)).getD 3 0 = b3 := by
    rw [hout]
    rfl
  have hcne : b32encode ((sha256 (checksumInput svc rb ts)).take 4) ≠ [] := by
    rw [htake]
    exact b32encode_four_ne_nil _ rfl
  have hpush : setLastChar (generate_api_key sha256 svc rb ts).1 ch =
      svc.pfx ++ Char.ofNat 95 ::
        (svc.environment ++ Char.ofNat 95 ::
          ((Char.ofNat 118 :: intChars svc.version) ++ Char.ofNat 95 ::
            (natChars ts ++ Char.ofNat 95 ::
              (b32encode rb ++ Char.ofNat 95 ::
                setLastChar (b32encode
                  ((sha256 (checksumInput svc rb ts)).take 4)) ch)))) := by
    show setLastChar (svc.pfx ++ Char.ofNat 95 :: _) ch = _
    rw [setLast_through _ _ _ _ (by simp), setLast_through _ _ _ _ (by simp),
      setLast_through _ _ _ _ (by simp), setLast_through _ _ _ _ (by simp),
      setLast_through _ _ _ _ (by simpa using hcne)]
  have hund' : Char.ofNat 95 ∉ setLastChar (b32encode
      ((sha256 (checksumInput svc rb ts)).take 4)) ch :=
    underscore_not_mem_setLast hund
  have hsplit : splitOnChar (Char.ofNat 95)
      (setLastChar (generate_api_key sha256 svc rb ts).1 ch) =
      [svc.pfx, svc.environment, Char.ofNat 118 :: intChars svc.version,
       natChars ts, b32encode rb,
       setLastChar (b32encode ((sha256 (checksumInput svc rb ts)).take 4)) ch] := by
    rw [hpush]
    rw [splitOnChar_append hp, splitOnChar_append he,
      splitOnChar_append underscore_not_mem_vstr,
      splitOnChar_append underscore_not_mem_natChars,
      splitOnChar_append underscore_not_mem_b32encode,
      splitOnChar_of_not_mem hund']
  rw [validate_api_key_format, hsplit]
  simp only
  rw [if_neg (by simp)]
  rw [if_neg (by simp [startsWithChar])]
  rw [parseU32_natChars hts]
  rw [b32decode_encode rb hrb]
  dsimp only
  have hXfold : strBytes svc.pfx ++ strBytes svc.environment ++
      strBytes (Char.ofNat 118 :: intChars svc.version) ++
      strBytes (natChars ts) ++ rb = checksumInput svc rb ts := rfl
  rw [hXfold, htake]
  have hsetl : setLastChar (b32encode [b0, b1, b2, b3]) ch =
      (b32encode [b0, b1, b2, b3]).dropLast ++ [ch] := rfl
  rw [hsetl]
  by_cases hpadq : ch.toNat = 61
  · have hch : ch = Char.ofNat 61 := by rw [← Char.ofNat_toNat ch, hpadq]
    subst hch
    rw [flip_decode_pad b0 b1 b2 b3 hb0 hb1 hb2 hb3]
    dsimp only
    rw [if_pos (by simp)]
  · rcases hcase with hv | hpad61 | ⟨v, hv, hdiff⟩
    · have hnall : ¬ ((b32encode [b0, b1, b2, b3]).dropLast ++ [ch]).all
          (fun c => (b32Val c).isSome) = true := by
        intro hall
        have := List.all_eq_true.mp hall ch (List.mem_append_right _ (by simp))
        rw [hv] at this
        simp at this
      rw [b32decode, if_neg hnall]
    · exact absurd hpad61 hpadq
    · rw [flip_decode b0 b1 b2 b3 hb0 hb1 hb2 hb3 ch v hv hpadq]
      dsimp only
      have hne : ¬ ([b0, b1, b2, b3 / 4 * 4 + v / 8] : List Nat) = [b0, b1, b2, b3] := by
        intro h
        injection h with h1 h
        injection h with h2 h
        injection h with h3 h
        injection h with h4 h5
        rw [hgetD] at hdiff
        omega
      rw [if_pos (by simpa using hne)]

/-- Replacing the final checksum character with the underscore separator
changes the field structure instead: the key splits into seven fields and
the validator rejects it with the format error. -/
theorem validate_flip_underscore (sha256 : List Nat → List Nat)
    (hlen : ∀ l, 4 ≤ (sha256 l).length)
    (svc : ApiKeyService) (hp : Char.ofNat 95 ∉ svc.pfx)
    (he : Char.ofNat 95 ∉ svc.environment)
    (rb : List Nat) (ts : Nat) :
    validate_api_key_format sha256 svc
      (setLastChar (generate_api_key sha256 svc rb ts).1 (Char.ofNat 95)) =
      .error .InvalidKeyFormat := by
  have hcne : b32encode ((sha256 (checksumInput svc rb ts)).take 4) ≠ [] := by
    have hl4 : ((sha256 (checksumInput svc rb ts)).take 4).length = 4 := by
      rw [List.length_take]
      have := hlen (checksumInput svc rb ts)
      omega
    exact b32encode_four_ne_nil _ hl4
  have hpush : setLastChar (generate_api_key sha256 svc rb ts).1 (Char.ofNat 95) =
      svc.pfx ++ Char.ofNat 95 ::
        (svc.environment ++ Char.ofNat 95 ::
          ((Char.ofNat 118 :: intChars svc.version) ++ Char.ofNat 95 ::
            (natChars ts ++ Char.ofNat 95 ::
              (b32encode rb ++ Char.ofNat 95 ::
                setLastChar (b32encode
                  ((sha256 (checksumInput svc rb ts)).take 4)) (Char.ofNat 95))))) := by
    show setLastChar (svc.pfx ++ Char.ofNat 95 :: _) (Char.ofNat 95) = _
    rw [setLast_through _ _ _ _ (by simp), setLast_through _ _ _ _ (by simp),
      setLast_through _ _ _ _ (by simp), setLast_through _ _ _ _ (by simp),
      setLast_through _ _ _ _ (by simpa using hcne)]
  have hdl : Char.ofNat 95 ∉
      (b32encode ((sha256 (checksumInput svc rb ts)).take 4)).dropLast :=
    fun h => underscore_not_mem_b32encode (List.dropLast_subset _ h)
  have hlastfield : setLastChar (b32encode
      ((sha256 (checksumInput svc rb ts)).take 4)) (Char.ofNat 95) =
      (b32encode ((sha256 (checksumInput svc rb ts)).take 4)).dropLast ++
        Char.ofNat 95 :: [] := rfl
  have hsplit7 : splitOnChar (Char.ofNat 95)
      (setLastChar (generate_api_key sha256 svc rb ts).1 (Char.ofNat 95)) =
      [svc.pfx, svc.environment, Char.ofNat 118 :: intChars svc.version,
       natChars ts, b32encode rb,
       (b32encode ((sha256 (checksumInput svc rb ts)).take 4)).dropLast, []] := by
    rw [hpush, hlastfield]
    rw [splitOnChar_append hp, splitOnChar_append he,
      splitOnChar_append underscore_not_mem_vstr,
      splitOnChar_append underscore_not_mem_natChars,
      splitOnChar_append underscore_not_mem_b32encode,
      splitOnChar_append hdl]
    rfl
  rw [validate_api_key_format, hsplit7]

/-- C7 counterexample: at a concrete generation (20 zero random bytes,
timestamp 1700000000, the toy hash) the random field of the plaintext has
32 base32 characters — not 26 as the claim states (20 random bytes always
encode to 32 characters) — and flipping the last character of the
checksum field from its generated value to a character that differs only
in the three padding bits the 7-character encoding discards (here `J` in
place of `I`) still validates ok rather than returning ChecksumError. -/
theorem C7_counterexample :
    ((splitOnChar (Char.ofNat 95)
      (generate_api_key toySha256 acmeService
        (List.replicate 20 0) 1700000000).1).getD 4 []).length = 32 ∧
    (32 : Nat) ≠ 26 ∧
    validate_api_key_format toySha256 acmeService
      (setLastChar
        (generate_api_key toySha256 acmeService (List.replicate 20 0) 1700000000).1
        (Char.ofNat 74)) = .ok () := by
  refine ⟨by decide, by decide, by decide⟩

/-- C7 amended: `generate_api_key` under configuration ("acme", "prod", 1)
produces a plaintext of the shape
`acme_prod_v1_<timestamp>_<32-char-base32-random>_<7-char-base32-checksum>`
(20 random bytes always encode to 32 characters, not 26);
`validate_api_key_format` on that exact string returns ok; replacing the
last character of the checksum field returns ChecksumError when the new
character is the padding character (the field then decodes to only three
bytes), or lies outside the case-folded base32 alphabet (other than the
underscore separator), or is an alphabet character whose 5-bit value
differs from the original's in its top two bits — the only bits of the
seventh character that survive decoding (the original's value has the
form `(b3 % 4) * 8` for the fourth checksum byte `b3`, so the condition
is `v / 8 ≠ b3 % 4`); replacing it with the underscore separator instead
makes the key split into seven fields and returns FormatError. -/
theorem C7_concrete_scenario_amended (sha256 : List Nat → List Nat)
    (hlen : ∀ l, (sha256 l).length = 32)
    (hbytes : ∀ l, ∀ b ∈ sha256 l, b < 256)
    (rb : List Nat) (hrb : ∀ b ∈ rb, b < 256) (hrblen : rb.length = 20)
    (ts : Nat) (hts : ts < 2 ^ 32) :
    splitOnChar (Char.ofNat 95) (generate_api_key sha256 acmeService rb ts).1 =
      [['a', 'c', 'm', 'e'], ['p', 'r', 'o', 'd'], ['v', '1'], natChars ts,
       b32encode rb,
       b32encode ((sha256 (checksumInput acmeService rb ts)).take 4)] ∧
    (b32encode rb).length = 32 ∧
    (b32encode ((sha256 (checksumInput acmeService rb ts)).take 4)).length = 7 ∧
    validate_api_key_format sha256 acmeService
      (generate_api_key sha256 acmeService rb ts).1 = .ok () ∧
    (∀ ch : Char, ch ≠ Char.ofNat 95 →
      (b32Val ch = none ∨ ch.toNat = 61 ∨ ∃ v, b32Val ch = some v ∧
        v / 8 ≠ ((sha256 (checksumInput acmeService rb ts)).getD 3 0) % 4) →
      validate_api_key_format sha256 acmeService
        (setLastChar (generate_api_key sha256 acmeService rb ts).1 ch) =
        .error .InvalidChecksum) ∧
    validate_api_key_format sha256 acmeService
      (setLastChar (generate_api_key sha256 acmeService rb ts).1 (Char.ofNat 95)) =
      .error .InvalidKeyFormat := by
  have hlen4 : ∀ l, 4 ≤ (sha256 l).length := fun l => by rw [hlen]; norm_num
  refine ⟨?_, ?_, ?_, ?_, ?_, ?_⟩
  · rw [generate_key_split sha256 acmeService (by decide) (by decide) rb ts]
    rfl
  · rw [b32encode_length, hrblen]
  · rw [b32encode_length, List.length_take, hlen]
    rfl
  · exact validate_generate_ok sha256 hbytes acmeService (by decide) (by decide)
      rb hrb ts hts
  · intro ch hch hcase
    exact validate_flip_checksum sha256 hlen4 hbytes acmeService (by decide)
      (by decide) rb hrb ts hts ch hch hcase
  · exact validate_flip_underscore sha256 hlen4 acmeService (by decide)
      (by decide) rb ts

/-- Witness for the amended C7 at the toy hash and a concrete generation. -/
theorem C7_concrete_scenario_amended_witness :
    splitOnChar (Char.ofNat 95)
      (generate_api_key toySha256 acmeService (List.replicate 20 0) 1700000000).1 =
      [['a', 'c', 'm', 'e'], ['p', 'r', 'o', 'd'], ['v', '1'], natChars 1700000000,
       b32encode (List.replicate 20 0),
       b32encode ((toySha256 (checksumInput acmeService
         (List.replicate 20 0) 1700000000)).take 4)] ∧
    (b32encode (List.replicate 20 0)).length = 32 ∧
    (b32encode ((toySha256 (checksumInput acmeService
      (List.replicate 20 0) 1700000000)).take 4)).length = 7 ∧
    validate_api_key_format toySha256 acmeService
      (generate_api_key toySha256 acmeService (List.replicate 20 0) 1700000000).1 =
      .ok () ∧
    (∀ ch : Char, ch ≠ Char.ofNat 95 →
      (b32Val ch = none ∨ ch.toNat = 61 ∨ ∃ v, b32Val ch = some v ∧
        v / 8 ≠ ((toySha256 (checksumInput acmeService
          (List.replicate 20 0) 1700000000)).getD 3 0) % 4) →
      validate_api_key_format toySha256 acmeService
        (setLastChar (generate_api_key toySha256 acmeService
          (List.replicate 20 0) 1700000000).1 ch) =
        .error .InvalidChecksum) ∧
    validate_api_key_format toySha256 acmeService
      (setLastChar (generate_api_key toySha256 acmeService
        (List.replicate 20 0) 1700000000).1 (Char.ofNat 95)) =
      .error .InvalidKeyFormat :=
  C7_concrete_scenario_amended toySha256
    (by
      intro l
      rw [toySha256, List.length_map, List.length_range])
    (by
      intro l b hb
      rw [toySha256] at hb
      rcases List.mem_map.mp hb with ⟨i, _, rfl⟩
      exact Nat.mod_lt _ (by norm_num))
    (List.replicate 20 0)
    (by
      intro b hb
      rw [List.eq_of_mem_replicate hb]
      norm_num)
    (by decide) 1700000000 (by norm_num)

end SecureApiKey
